import Mathlib

/-!
Verification development for the decode+probe core of `src/backend/server.py`
(a V2Ray configuration tester).  Python strings are modelled as `List Char`
(unicode scalar values), `bytes` as `List Nat` (each element < 256), and
Python-level exceptions of the translated functions as `Except String`.
Fallible decoders return `Option` at the top level, exactly as the Python
functions return a dict or `None`.
-/

set_option maxHeartbeats 1000000

namespace VpnSpec

/-- Python strings as lists of unicode scalar characters. -/
abbrev PStr := List Char

/-- Whitespace characters removed by Python `str.strip()` (ASCII subset; the
source never feeds non-ASCII whitespace to `strip`). -/
def isPyWs (c : Char) : Bool :=
  c = ' ' || c = '\t' || c = '\n' || c = '\r' || c = '\x0B' || c = '\x0C'

/-- Python `str.lstrip()`. -/
def lstripWs (s : PStr) : PStr := s.dropWhile isPyWs

/-- Python `str.rstrip()`. -/
def rstripWs (s : PStr) : PStr := ((s.reverse).dropWhile isPyWs).reverse

/-- Python `str.strip()`. -/
def stripWs (s : PStr) : PStr := rstripWs (lstripWs s)

/-- Python `str.rstrip(c)` for a one-character set. -/
def rstripChar (c : Char) (s : PStr) : PStr := ((s.reverse).dropWhile (· = c)).reverse

/-- Python `str.strip(cs)`: removes every leading and trailing character
belonging to the set `cs`. -/
def stripSet (cs : PStr) (s : PStr) : PStr :=
  (((s.dropWhile (cs.contains ·)).reverse).dropWhile (cs.contains ·)).reverse

/-- Python `str.lower()` (ASCII case folding; the source only lowercases
ASCII tag searches). -/
def lowerStr (s : PStr) : PStr := s.map Char.toLower

/-- Index of the first occurrence of character `c` (Python `str.index` /
`str.find` for a one-character needle). -/
def idxOfChar (c : Char) : PStr → Option Nat
  | [] => none
  | a :: t => if a = c then some 0 else (idxOfChar c t).map (· + 1)

/-- Index of the last occurrence of character `c`. -/
def lastIdxOfChar (c : Char) : PStr → Option Nat
  | [] => none
  | a :: t =>
    match lastIdxOfChar c t with
    | some i => some (i + 1)
    | none => if a = c then some 0 else none

/-- Python `s.split(c, 1)` for a one-character separator, defined only when
the separator occurs (the source always guards the split with an `in` test). -/
def splitFirstChar (c : Char) (s : PStr) : Option (PStr × PStr) :=
  match idxOfChar c s with
  | some i => some (s.take i, s.drop (i + 1))
  | none => none

/-- Python `s.rsplit(c, 1)` for a one-character separator, defined only when
the separator occurs. -/
def splitLastChar (c : Char) (s : PStr) : Option (PStr × PStr) :=
  match lastIdxOfChar c s with
  | some i => some (s.take i, s.drop (i + 1))
  | none => none

/-- Python `s.split(c)[0]`: everything before the first occurrence of `c`,
or the whole string if `c` is absent. -/
def takeUntilChar (c : Char) (s : PStr) : PStr :=
  match idxOfChar c s with
  | some i => s.take i
  | none => s

/-- Index of the first occurrence of the substring `pat` (Python `in` /
`find` for multi-character needles). -/
def findSub (pat : PStr) : PStr → Option Nat
  | [] => if pat.isPrefixOf ([] : PStr) then some 0 else none
  | a :: t => if pat.isPrefixOf (a :: t) then some 0 else (findSub pat t).map (· + 1)

/-- Index of the last occurrence of the substring `pat`. -/
def findSubLast (pat : PStr) : PStr → Option Nat
  | [] => if pat.isPrefixOf ([] : PStr) then some 0 else none
  | a :: t =>
    match findSubLast pat t with
    | some i => some (i + 1)
    | none => if pat.isPrefixOf (a :: t) then some 0 else none

/-- Python `pat in s` for a multi-character needle. -/
def containsSub (pat s : PStr) : Bool := (findSub pat s).isSome

/-- Python `s.rsplit(pat, 1)` for a multi-character separator, defined only
when the separator occurs. -/
def splitLastSub (pat : PStr) (s : PStr) : Option (PStr × PStr) :=
  match findSubLast pat s with
  | some i => some (s.take i, s.drop (i + pat.length))
  | none => none

/-- Python `s.split(pat)[0]`: everything before the first occurrence of
`pat`, or the whole string when absent. -/
def takeUntilSub (pat : PStr) (s : PStr) : PStr :=
  match findSub pat s with
  | some i => s.take i
  | none => s

/-- Python `s.replace(pat, "")`: removes every occurrence of `pat`, scanning
left to right without overlap. -/
def removeSub (pat : PStr) : PStr → PStr
  | [] => []
  | a :: t =>
    if pat.isPrefixOf (a :: t) then removeSub pat (t.drop (pat.length - 1))
    else a :: removeSub pat t
termination_by s => s.length
decreasing_by
  · simp only [List.length_cons]
    have := List.length_drop (pat.length - 1) t
    omega
  · simp [List.length_cons]

/-! ### UTF-8 encoding and decoding

Models CPython's `str.encode("utf-8")` and `bytes.decode("utf-8", errors=...)`.
On a decode error the codec consumes the maximal valid subpart of a sequence
and either skips it (`ignore`) or emits U+FFFD (`replace`). -/

/-- Error handler selector for the modelled UTF-8 decoder. -/
inductive U8Mode where
  | ignore
  | replace
deriving DecidableEq

/-- UTF-8 encoding of a single unicode scalar value. -/
def utf8EncodeChar (c : Char) : List Nat :=
  let n := c.toNat
  if n < 0x80 then [n]
  else if n < 0x800 then [0xC0 + n / 64, 0x80 + n % 64]
  else if n < 0x10000 then [0xE0 + n / 4096, 0x80 + n / 64 % 64, 0x80 + n % 64]
  else [0xF0 + n / 262144, 0x80 + n / 4096 % 64, 0x80 + n / 64 % 64, 0x80 + n % 64]

/-- Python `str.encode("utf-8")`. -/
def utf8Encode (s : PStr) : List Nat := (s.map utf8EncodeChar).flatten

/-- Value of a UTF-8 continuation byte, when it is one. -/
def u8cont (b : Nat) : Option Nat :=
  if 0x80 ≤ b ∧ b < 0xC0 then some (b % 64) else none

/-- Replacement emitted for an invalid sequence: nothing under `ignore`,
U+FFFD under `replace`. -/
def u8err (m : U8Mode) : PStr :=
  match m with
  | .ignore => []
  | .replace => [Char.ofNat 0xFFFD]

/-- Range restriction on the first continuation byte of a 3-byte sequence
(excludes overlong forms and surrogates, as CPython does). -/
def u8c3ok (b1 b2 : Nat) : Bool :=
  if b1 = 0xE0 then 0xA0 ≤ b2 && b2 < 0xC0
  else if b1 = 0xED then 0x80 ≤ b2 && b2 < 0xA0
  else 0x80 ≤ b2 && b2 < 0xC0

/-- Range restriction on the first continuation byte of a 4-byte sequence. -/
def u8c4ok (b1 b2 : Nat) : Bool :=
  if b1 = 0xF0 then 0x90 ≤ b2 && b2 < 0xC0
  else if b1 = 0xF4 then 0x80 ≤ b2 && b2 < 0x90
  else 0x80 ≤ b2 && b2 < 0xC0

/-- Worker for the UTF-8 decoder.  The fuel argument only serves Lean's
termination checking; every step consumes at least one byte, so fuel equal
to the byte count never runs out. -/
def utf8DecGo (m : U8Mode) : Nat → List Nat → PStr
  | 0, _ => []
  | _, [] => []
  | fuel + 1, b1 :: rest =>
    if b1 < 0x80 then Char.ofNat b1 :: utf8DecGo m fuel rest
    else if 0xC2 ≤ b1 ∧ b1 ≤ 0xDF then
      match rest with
      | b2 :: rest2 =>
        match u8cont b2 with
        | some v2 => Char.ofNat ((b1 - 0xC0) * 64 + v2) :: utf8DecGo m fuel rest2
        | none => u8err m ++ utf8DecGo m fuel rest
      | [] => u8err m
    else if 0xE0 ≤ b1 ∧ b1 ≤ 0xEF then
      match rest with
      | b2 :: rest2 =>
        if u8c3ok b1 b2 then
          match rest2 with
          | b3 :: rest3 =>
            match u8cont b3 with
            | some v3 =>
                Char.ofNat ((b1 - 0xE0) * 4096 + (b2 % 64) * 64 + v3) :: utf8DecGo m fuel rest3
            | none => u8err m ++ utf8DecGo m fuel (b3 :: rest3)
          | [] => u8err m
        else u8err m ++ utf8DecGo m fuel rest
      | [] => u8err m
    else if 0xF0 ≤ b1 ∧ b1 ≤ 0xF4 then
      match rest with
      | b2 :: rest2 =>
        if u8c4ok b1 b2 then
          match rest2 with
          | b3 :: rest3 =>
            match u8cont b3 with
            | some v3 =>
              match rest3 with
              | b4 :: rest4 =>
                match u8cont b4 with
                | some v4 =>
                    Char.ofNat ((b1 - 0xF0) * 262144 + (b2 % 64) * 4096 + v3 * 64 + v4)
                      :: utf8DecGo m fuel rest4
                | none => u8err m ++ utf8DecGo m fuel (b4 :: rest4)
              | [] => u8err m
            | none => u8err m ++ utf8DecGo m fuel (b3 :: rest3)
          | [] => u8err m
        else u8err m ++ utf8DecGo m fuel rest
      | [] => u8err m
    else u8err m ++ utf8DecGo m fuel rest

/-- Python `bytes.decode("utf-8", errors=...)` with `ignore` or `replace`. -/
def utf8Dec (m : U8Mode) (bs : List Nat) : PStr := utf8DecGo m bs.length bs

/-! ### Base64

Models `base64.b64encode` and `base64.b64decode` in CPython's default
(non-strict) mode, following `binascii.a2b_base64`: non-ASCII input is
rejected (`b64decode` encodes a `str` argument as ASCII); characters outside
the alphabet are discarded; a `=` is ignored before two data characters of a
quad have been seen, and a complete pad sequence (`==` after two data
characters, `=` after three) terminates decoding, discarding the rest; a
stream ending mid-quad raises (`quad_pos` 1: "cannot be 1 more than a
multiple of 4", `quad_pos` 2 or 3: "Incorrect padding"). -/

/-- Character of the standard base64 alphabet for a 6-bit value. -/
def b64chr (v : Nat) : Char :=
  if v < 26 then Char.ofNat ('A'.toNat + v)
  else if v < 52 then Char.ofNat ('a'.toNat + (v - 26))
  else if v < 62 then Char.ofNat ('0'.toNat + (v - 52))
  else if v = 62 then '+'
  else '/'

/-- Inverse of the base64 alphabet; `none` for characters outside it. -/
def b64val (c : Char) : Option Nat :=
  if 'A' ≤ c ∧ c ≤ 'Z' then some (c.toNat - 'A'.toNat)
  else if 'a' ≤ c ∧ c ≤ 'z' then some (c.toNat - 'a'.toNat + 26)
  else if '0' ≤ c ∧ c ≤ '9' then some (c.toNat - '0'.toNat + 52)
  else if c = '+' then some 62
  else if c = '/' then some 63
  else none

/-- Python `base64.b64encode`, as text (standard alphabet, `=` padding). -/
def b64encodeBytes : List Nat → PStr
  | [] => []
  | [b1] => [b64chr (b1 / 4), b64chr (b1 % 4 * 16), '=', '=']
  | [b1, b2] => [b64chr (b1 / 4), b64chr (b1 % 4 * 16 + b2 / 16), b64chr (b2 % 16 * 4), '=']
  | b1 :: b2 :: b3 :: rest =>
    b64chr (b1 / 4) :: b64chr (b1 % 4 * 16 + b2 / 16) :: b64chr (b2 % 16 * 4 + b3 / 64)
      :: b64chr (b3 % 64) :: b64encodeBytes rest

/-- State machine of `binascii.a2b_base64` in non-strict mode: arguments
are the remaining input, `quad_pos`, `leftchar` and the running pad count. -/
def b64dGo : PStr → Nat → Nat → Nat → Except String (List Nat)
  | [], qp, _, _ =>
    if qp = 0 then .ok []
    else if qp = 1 then
      .error "binascii.Error: number of data characters cannot be 1 more than a multiple of 4"
    else .error "binascii.Error: Incorrect padding"
  | c :: t, qp, left, pads =>
    if c = '=' then
      if 2 ≤ qp then
        if 4 ≤ qp + (pads + 1) then .ok []
        else b64dGo t qp left (pads + 1)
      else b64dGo t qp left pads
    else
      match b64val c with
      | none => b64dGo t qp left pads
      | some v =>
        if qp = 0 then b64dGo t 1 v 0
        else if qp = 1 then (b64dGo t 2 (v % 16) 0).map (fun bs => (left * 4 + v / 16) :: bs)
        else if qp = 2 then (b64dGo t 3 (v % 4) 0).map (fun bs => (left * 16 + v / 4) :: bs)
        else (b64dGo t 0 0 0).map (fun bs => (left * 64 + v) :: bs)

/-- Python `base64.b64decode` on a `str` argument, default non-strict mode. -/
def b64decodePy (s : PStr) : Except String (List Nat) :=
  if s.any (fun c => 0x80 ≤ c.toNat) then
    .error "ValueError: string argument should contain only ASCII characters"
  else b64dGo s 0 0 0

/-! ### Python `int()` on strings

Strips whitespace, accepts an optional sign, then ASCII decimal digits with
single underscores allowed between digits (arbitrary precision, no range
check).  Anything else raises `ValueError`.  (Non-ASCII decimal digits,
which CPython also accepts, never occur in the repository's inputs and are
not modelled.) -/

/-- Digit accumulator for `int()`: consumes digits and infix underscores. -/
def pyIntDigsGo (acc : Nat) : PStr → Option Nat
  | [] => some acc
  | c :: t =>
    if c.isDigit then pyIntDigsGo (acc * 10 + (c.toNat - '0'.toNat)) t
    else if c = '_' then
      match t with
      | d :: t2 => if d.isDigit then pyIntDigsGo (acc * 10 + (d.toNat - '0'.toNat)) t2 else none
      | [] => none
    else none

/-- Parses a nonempty unsigned digit string as `int()` does. -/
def pyIntDigs : PStr → Option Nat
  | [] => none
  | c :: t => if c.isDigit then pyIntDigsGo (c.toNat - '0'.toNat) t else none

/-- Python `int(s)` for a string argument. -/
def pyInt (s : PStr) : Except String Int :=
  match stripWs s with
  | [] => .error "ValueError: invalid literal for int"
  | c :: t2 =>
    if c = '+' then
      match pyIntDigs t2 with
      | some n => .ok (n : Int)
      | none => .error "ValueError: invalid literal for int"
    else if c = '-' then
      match pyIntDigs t2 with
      | some n => .ok (-(n : Int))
      | none => .error "ValueError: invalid literal for int"
    else
      match pyIntDigs (c :: t2) with
      | some n => .ok (n : Int)
      | none => .error "ValueError: invalid literal for int"

/-- Worker for `natDigits`; structural in the fuel (any fuel above the
number works). -/
def natDigitsGo : Nat → Nat → PStr
  | 0, _ => []
  | f + 1, n =>
    if n < 10 then [Char.ofNat ('0'.toNat + n)]
    else natDigitsGo f (n / 10) ++ [Char.ofNat ('0'.toNat + n % 10)]

/-- Decimal digit string of a natural number, most significant digit first
(the canonical form `int()` inverts). -/
def natDigits (n : Nat) : PStr := natDigitsGo (n + 1) n

/-! ### Percent decoding

Models `urllib.parse.unquote`: runs of `%XX` escapes are collected into a
byte string and decoded as UTF-8 with `errors="replace"`; a `%` not followed
by two hex digits is kept literally; everything else passes through. -/

/-- Value of a hexadecimal digit (both cases), `none` otherwise. -/
def hexVal (c : Char) : Option Nat :=
  if '0' ≤ c ∧ c ≤ '9' then some (c.toNat - '0'.toNat)
  else if 'a' ≤ c ∧ c ≤ 'f' then some (c.toNat - 'a'.toNat + 10)
  else if 'A' ≤ c ∧ c ≤ 'F' then some (c.toNat - 'A'.toNat + 10)
  else none

/-- Collects a maximal run of `%XX` escapes into bytes, returning the rest. -/
def pctRun : PStr → List Nat × PStr
  | '%' :: h1 :: h2 :: t =>
    match hexVal h1, hexVal h2 with
    | some a, some b =>
      let p := pctRun t
      ((16 * a + b) :: p.1, p.2)
    | _, _ => ([], '%' :: h1 :: h2 :: t)
  | s => ([], s)

/-- Worker for `unquote`; the fuel argument (initially the string length)
only serves termination, every step consumes at least one character. -/
def unquoteGo : Nat → PStr → PStr
  | 0, _ => []
  | _, [] => []
  | fuel + 1, c :: t =>
    if c = '%' then
      let p := pctRun (c :: t)
      if p.1 = [] then c :: unquoteGo fuel t
      else utf8Dec .replace p.1 ++ unquoteGo fuel p.2
    else c :: unquoteGo fuel t

/-- Python `urllib.parse.unquote` with the default UTF-8/replace policy. -/
def unquote (s : PStr) : PStr := unquoteGo s.length s

/-! ### JSON

Models `json.loads` closely enough for the vmess decoder: the strict JSON
grammar plus CPython's `NaN`/`Infinity`/`-Infinity` extensions.  Numbers
without fraction or exponent become arbitrary-precision integers; other
numbers are kept as exact rationals (CPython uses binary doubles; no claim
touches non-integer numbers).  Lone surrogate escapes, which CPython keeps
as unpaired surrogate code units, are mapped to U+FFFD since Lean characters
are scalar values; no claim exercises them. -/

/-- JSON values as produced by `json.loads`. -/
inductive JValue where
  | jnull
  | jbool (b : Bool)
  | jint (n : Int)
  | jfloat (q : Rat)
  | jnan
  | jinf (neg : Bool)
  | jstr (s : PStr)
  | jarr (xs : List JValue)
  | jobj (kvs : List (PStr × JValue))

/-- JSON insignificant whitespace. -/
def jsonWs (s : PStr) : PStr :=
  s.dropWhile (fun c => c = ' ' || c = '\t' || c = '\n' || c = '\r')

/-- Four hex digits of a `\uXXXX` escape. -/
def jsonHex4 : PStr → Option (Nat × PStr)
  | h1 :: h2 :: h3 :: h4 :: t =>
    match hexVal h1, hexVal h2, hexVal h3, hexVal h4 with
    | some a, some b, some c, some d => some (4096 * a + 256 * b + 16 * c + d, t)
    | _, _, _, _ => none
  | _ => none

/-- Prepends a character to the accumulated string of a string-parser result. -/
def consFst (c : Char) (r : Except String (PStr × PStr)) : Except String (PStr × PStr) :=
  r.map (fun p => (c :: p.1, p.2))

/-- Translation of a single-character JSON escape. -/
def jsonEsc (e : Char) : Option Char :=
  if e = '"' then some '"'
  else if e = '\\' then some '\\'
  else if e = '/' then some '/'
  else if e = 'b' then some '\x08'
  else if e = 'f' then some '\x0C'
  else if e = 'n' then some '\n'
  else if e = 'r' then some '\r'
  else if e = 't' then some '\t'
  else none

/-- Parses the body of a JSON string (after the opening quote), returning
content and remaining input.  Fueled; each step consumes at least one
character. -/
def jsonStrGo : Nat → PStr → Except String (PStr × PStr)
  | 0, _ => .error "Unterminated string"
  | _, [] => .error "Unterminated string"
  | fuel + 1, c :: t =>
    if c = '"' then .ok ([], t)
    else if c = '\\' then
      match t with
      | [] => .error "Unterminated string"
      | 'u' :: t2 =>
        match jsonHex4 t2 with
        | none => .error "Invalid hex escape"
        | some (v, t3) =>
          if 0xD800 ≤ v ∧ v < 0xDC00 then
            match t3 with
            | '\\' :: 'u' :: t4 =>
              match jsonHex4 t4 with
              | some (w, t5) =>
                if 0xDC00 ≤ w ∧ w < 0xE000 then
                  consFst (Char.ofNat (0x10000 + (v - 0xD800) * 1024 + (w - 0xDC00)))
                    (jsonStrGo fuel t5)
                else consFst (Char.ofNat 0xFFFD) (jsonStrGo fuel t3)
              | none => consFst (Char.ofNat 0xFFFD) (jsonStrGo fuel t3)
            | _ => consFst (Char.ofNat 0xFFFD) (jsonStrGo fuel t3)
          else if 0xDC00 ≤ v ∧ v < 0xE000 then
            consFst (Char.ofNat 0xFFFD) (jsonStrGo fuel t3)
          else consFst (Char.ofNat v) (jsonStrGo fuel t3)
      | e :: t2 =>
        match jsonEsc e with
        | some d => consFst d (jsonStrGo fuel t2)
        | none => .error "Invalid escape"
    else if c.toNat < 0x20 then .error "Invalid control character"
    else consFst c (jsonStrGo fuel t)

/-- Run of ASCII decimal digits and the remaining input. -/
def takeDigits (s : PStr) : PStr × PStr := (s.takeWhile Char.isDigit, s.dropWhile Char.isDigit)

/-- Numeric value of a digit run. -/
def digsVal (ds : PStr) : Nat := ds.foldl (fun a c => a * 10 + (c.toNat - '0'.toNat)) 0

/-- Parses a JSON number (or the `Infinity` extension after a minus sign).
Returns `none` where CPython's scanner would fail at this position. -/
def jsonNum (s : PStr) : Option (JValue × PStr) :=
  let signSplit : Bool × PStr := match s with
    | '-' :: t => (true, t)
    | _ => (false, s)
  let neg := signSplit.1
  let s1 := signSplit.2
  match s1 with
  | 'I' :: 'n' :: 'f' :: 'i' :: 'n' :: 'i' :: 't' :: 'y' :: r =>
    if neg then some (.jinf true, r) else none
  | c :: _ =>
    if ¬ c.isDigit then none
    else
      let ipr := takeDigits s1
      let ip := ipr.1
      if 1 < ip.length ∧ ip.headI = '0' then none
      else
        let fracr : Bool × PStr × PStr := match ipr.2 with
          | '.' :: t => let fr := takeDigits t; (true, fr.1, fr.2)
          | _ => (false, [], ipr.2)
        if fracr.1 ∧ fracr.2.1 = [] then none
        else
          let expr : Bool × Bool × PStr × PStr := match fracr.2.2 with
            | 'e' :: t | 'E' :: t =>
              match t with
              | '+' :: t2 => let er := takeDigits t2; (true, false, er.1, er.2)
              | '-' :: t2 => let er := takeDigits t2; (true, true, er.1, er.2)
              | _ => let er := takeDigits t; (true, false, er.1, er.2)
            | _ => (false, false, [], fracr.2.2)
          if expr.1 ∧ expr.2.2.1 = [] then none
          else
            let rest := expr.2.2.2
            if ¬ fracr.1 ∧ ¬ expr.1 then
              let n : Int := digsVal ip
              some (.jint (if neg then -n else n), rest)
            else
              let fp := fracr.2.1
              let mant : Rat := (digsVal ip : Rat) + (digsVal fp : Rat) / ((10 : Rat) ^ fp.length)
              let eAbs : Nat := digsVal expr.2.2.1
              let scaled : Rat :=
                if expr.2.1 then mant / ((10 : Rat) ^ eAbs) else mant * ((10 : Rat) ^ eAbs)
              some (.jfloat (if neg then -scaled else scaled), rest)
  | [] => none

mutual

/-- Parses one JSON value; fueled (fuel strictly decreases into subparsers). -/
def jsonVal : Nat → PStr → Except String (JValue × PStr)
  | 0, _ => .error "Out of fuel"
  | fuel + 1, s0 =>
    let s := jsonWs s0
    match s with
    | 'n' :: 'u' :: 'l' :: 'l' :: r => .ok (.jnull, r)
    | 't' :: 'r' :: 'u' :: 'e' :: r => .ok (.jbool true, r)
    | 'f' :: 'a' :: 'l' :: 's' :: 'e' :: r => .ok (.jbool false, r)
    | 'N' :: 'a' :: 'N' :: r => .ok (.jnan, r)
    | 'I' :: 'n' :: 'f' :: 'i' :: 'n' :: 'i' :: 't' :: 'y' :: r => .ok (.jinf false, r)
    | '"' :: r => (jsonStrGo (r.length + 1) r).map (fun p => (.jstr p.1, p.2))
    | '[' :: r =>
      match jsonWs r with
      | ']' :: r2 => .ok (.jarr [], r2)
      | r2 => (jsonElems fuel r2).map (fun p => (.jarr p.1, p.2))
    | '{' :: r =>
      match jsonWs r with
      | '}' :: r2 => .ok (.jobj [], r2)
      | r2 => (jsonMembers fuel r2).map (fun p => (.jobj p.1, p.2))
    | _ =>
      match jsonNum s with
      | some (v, r) => .ok (v, r)
      | none => .error "Expecting value"

/-- Parses the nonempty element list of a JSON array up to `]`. -/
def jsonElems : Nat → PStr → Except String (List JValue × PStr)
  | 0, _ => .error "Out of fuel"
  | fuel + 1, s =>
    match jsonVal fuel s with
    | .error e => .error e
    | .ok (v, r) =>
      match jsonWs r with
      | ',' :: r2 => (jsonElems fuel r2).map (fun p => (v :: p.1, p.2))
      | ']' :: r2 => .ok ([v], r2)
      | _ => .error "Expecting comma"

/-- Parses the nonempty member list of a JSON object up to the closing
brace (written `\x7d`). -/
def jsonMembers : Nat → PStr → Except String (List (PStr × JValue) × PStr)
  | 0, _ => .error "Out of fuel"
  | fuel + 1, s =>
    match jsonWs s with
    | '"' :: r =>
      match jsonStrGo (r.length + 1) r with
      | .error e => .error e
      | .ok (k, r2) =>
        match jsonWs r2 with
        | ':' :: r3 =>
          match jsonVal fuel r3 with
          | .error e => .error e
          | .ok (v, r4) =>
            match jsonWs r4 with
            | ',' :: r5 => (jsonMembers fuel r5).map (fun p => ((k, v) :: p.1, p.2))
            | '\x7d' :: r5 => .ok ([(k, v)], r5)
            | _ => .error "Expecting comma"
        | _ => .error "Expecting colon"
    | _ => .error "Expecting property name"

end

/-- Python `json.loads` on a string. -/
def jsonLoads (s : PStr) : Except String JValue :=
  match jsonVal (s.length + 1) s with
  | .error e => .error e
  | .ok (v, rest) => if jsonWs rest = [] then .ok v else .error "Extra data"

/-- Python `dict.get(k)` on an object built by `json.loads`: with duplicate
keys the later member wins, as in a Python dict built by insertion. -/
def jlookup (kvs : List (PStr × JValue)) (k : PStr) : Option JValue :=
  kvs.foldl (fun acc p => if p.1 = k then some p.2 else acc) none

/-- Python `int(x)` applied to a value obtained from a JSON document:
`bool` is an `int` subtype (`int(True) = 1`), floats truncate toward zero,
strings are parsed, everything else raises. -/
def pyIntOfJValue : JValue → Except String Int
  | .jint n => .ok n
  | .jbool b => .ok (if b then 1 else 0)
  | .jfloat q => .ok (if q < 0 then -(Int.floor (-q)) else Int.floor q)
  | .jstr s => pyInt s
  | .jnan => .error "ValueError: cannot convert float NaN to integer"
  | .jinf _ => .error "OverflowError: cannot convert float infinity to integer"
  | .jnull => .error "TypeError: int() argument must not be None"
  | .jarr _ => .error "TypeError: int() argument"
  | .jobj _ => .error "TypeError: int() argument"

/-- Guard modelling a Python `str`-only operation (`.strip()`, `unquote`)
applied to a value taken from a JSON document: non-strings raise. -/
def asPyStr : JValue → Except String PStr
  | .jstr s => .ok s
  | _ => .error "TypeError: expected str"

/-! ### MetadataExtractor: `parse_config_name` -/

/-- Result tuple of `parse_config_name`. -/
structure NameInfo where
  name : PStr
  country : PStr
  telegram_channel : Option PStr
  is_telegram : Bool
deriving DecidableEq, Repr

/-- Country split of `parse_config_name`: on the last `::` when present,
both parts stripped; the pair is (working name, country). -/
def pcn_split (decoded : PStr) : PStr × PStr :=
  match splitLastSub ("::".data) decoded with
  | some p => (stripWs p.1, stripWs p.2)
  | none => (decoded, [])

/-- Working name after the country split and removal of `>>` markers. -/
def pcn_workName (decoded : PStr) : PStr :=
  let n := (pcn_split decoded).1
  if containsSub (">>".data) n then stripWs (removeSub (">>".data) n) else n

/-- Case (b) of the telegram cascade: lowercased name contains one of the
fixed tags. -/
def tagHit (clean : PStr) : Bool :=
  containsSub ("telegram".data) (lowerStr clean) ||
  containsSub ("tel@".data) (lowerStr clean) ||
  containsSub ("t.me/".data) (lowerStr clean)

/-- Translation of `parse_config_name` (lines 66-95 of `server.py`). -/
def parse_config_name (fragment : PStr) : NameInfo :=
  let decoded := unquote fragment
  let name := pcn_workName decoded
  let country := (pcn_split decoded).2
  let clean := stripWs name
  if clean.head? = some '@' then ⟨name, country, some clean, true⟩
  else if tagHit clean then ⟨name, country, some clean, true⟩
  else
    match idxOfChar '@' clean with
    | some i =>
      let atPart := clean.drop i
      if atPart ≠ [] then
        ⟨name, country, some (stripWs (takeUntilChar ':' (takeUntilSub ("::".data) atPart))), true⟩
      else ⟨name, country, none, false⟩
    | none => ⟨name, country, none, false⟩

/-! ### Protocol decoders -/

/-- Normalized record built by the four decoders (the Python dict handed to
`ConfigInfo`; the freshly minted `id` is attached outside the decoders). -/
structure ConfigRec where
  protocol : PStr
  server : PStr
  port : Int
  name : PStr
  country : PStr
  telegram_channel : Option PStr
  is_telegram : Bool
deriving DecidableEq, Repr

/-- Common dict construction of the decoders, including `server.strip()`. -/
def mkRec (proto : PStr) (server : PStr) (port : Int) (ni : NameInfo) : ConfigRec :=
  ⟨proto, stripWs server, port, ni.name, ni.country, ni.telegram_channel, ni.is_telegram⟩

/-- Host cleanup of the vless/trojan decoders: `split("?")[0].rstrip("/")`. -/
def url_clean (sp : PStr) : PStr := rstripChar '/' (takeUntilChar '?' sp)

/-- Common preamble of the decoders: strip the `n`-character scheme, then
split body and fragment at the first `#` (fragment empty when there is
none). -/
def split_hash (n : Nat) (s : PStr) : PStr × PStr :=
  match splitFirstChar '#' (s.drop n) with
  | some p => p
  | none => (s.drop n, [])

/-- Last-`:` split and port parse shared by both shadowsocks body forms. -/
def ss_hostport (sp : PStr) : Except String (PStr × Int) :=
  match splitLastChar ':' sp with
  | some q => do
    let port ← pyInt q.2
    pure (q.1, port)
  | none => .error "None: no colon in host part"

/-- Host part of the fully-encoded shadowsocks form: decode the body as
base64 (with the source's unconditional `+ "=="`), best-effort UTF-8, then
take everything after the last `@`. -/
def ss_decoded_host (body : PStr) : Except String PStr := do
  let bytes ← b64decodePy (body ++ ['=', '='])
  match splitLastChar '@' (utf8Dec .ignore bytes) with
  | some p => pure p.2
  | none => .error "None: no at sign in decoded body"

/-- Body of `parse_ss` (lines 97-137): `Except` models the `try` block,
both raised exceptions and the explicit `return None` paths map to `.error`. -/
def parse_ss_core (s : PStr) : Except String ConfigRec := do
  let hf := split_hash 5 s
  let sp ←
    (if hf.1.contains '@' then
      match splitLastChar '@' hf.1 with
      | some p => (pure (takeUntilChar '?' (rstripChar '/' p.2)) : Except String PStr)
      | none => .error "unreachable: guarded rsplit"
     else ss_decoded_host hf.1)
  let sv ← ss_hostport sp
  pure (mkRec ("shadowsocks".data) sv.1 sv.2 (parse_config_name hf.2))

/-- Translation of `parse_ss`. -/
def parse_ss (s : PStr) : Option ConfigRec := (parse_ss_core s).toOption

/-- Host/port extraction of the vless decoder from the cleaned host part:
bracketed IPv6 handling first, else last-`:` split, else default 443. -/
def vless_hostport (sp : PStr) : Except String (PStr × Int) :=
  if sp.head? = some '[' then
    match idxOfChar ']' sp with
    | none => .error "ValueError: substring not found"
    | some be =>
      if (sp.drop (be + 1)).head? = some ':' then do
        let port ← pyInt ((sp.drop (be + 1)).drop 1)
        pure (sp.take (be + 1), port)
      else pure (sp.take (be + 1), (443 : Int))
  else if sp.contains ':' then
    match splitLastChar ':' sp with
    | some q => do
      let port ← pyInt q.2
      pure (q.1, port)
    | none => .error "unreachable: guarded rsplit"
  else pure (sp, (443 : Int))

/-- Host/port extraction of the trojan decoder: identical to the vless one
except that the bracketed-IPv6 branch is absent. -/
def trojan_hostport (sp : PStr) : Except String (PStr × Int) :=
  if sp.contains ':' then
    match splitLastChar ':' sp with
    | some q => do
      let port ← pyInt q.2
      pure (q.1, port)
    | none => .error "unreachable: guarded rsplit"
  else pure (sp, (443 : Int))

/-- Body of `parse_vless` (lines 139-180). -/
def parse_vless_core (s : PStr) : Except String ConfigRec :=
  let hf := split_hash 8 s
  match splitFirstChar '@' hf.1 with
  | none => .error "None: no at sign"
  | some p => do
    let sv ← vless_hostport (url_clean p.2)
    pure (mkRec ("vless".data) sv.1 sv.2 (parse_config_name hf.2))

/-- Translation of `parse_vless`. -/
def parse_vless (s : PStr) : Option ConfigRec := (parse_vless_core s).toOption

/-- Body of `parse_trojan` (lines 210-242).  Unlike `parse_vless` it has no
bracketed-IPv6 branch. -/
def parse_trojan_core (s : PStr) : Except String ConfigRec :=
  let hf := split_hash 9 s
  match splitFirstChar '@' hf.1 with
  | none => .error "None: no at sign"
  | some p => do
    let sv ← trojan_hostport (url_clean p.2)
    pure (mkRec ("trojan".data) sv.1 sv.2 (parse_config_name hf.2))

/-- Translation of `parse_trojan`. -/
def parse_trojan (s : PStr) : Option ConfigRec := (parse_trojan_core s).toOption

/-- Base64 payload of a vmess line after the source's explicit padding
(`padding = 4 - len % 4`, appended only when `padding != 4`). -/
def vmess_padded (s : PStr) : PStr :=
  let encoded := s.drop 8
  let padding := 4 - encoded.length % 4
  if padding ≠ 4 then encoded ++ List.replicate padding '=' else encoded

/-- Decoded JSON payload of a vmess line. -/
def vmess_json (s : PStr) : Except String JValue := do
  let bytes ← b64decodePy (vmess_padded s)
  jsonLoads (utf8Dec .ignore bytes)

/-- Port extraction of the vmess decoder: `int(data.get("port", 443))`. -/
def vmess_port (kvs : List (PStr × JValue)) : Except String Int :=
  match jlookup kvs ("port".data) with
  | none => pure (443 : Int)
  | some v => pyIntOfJValue v

/-- Field extraction of the vmess decoder from the parsed JSON payload.
Type faults of `int(...)`, `unquote(ps)` and `server.strip()` on non-string
JSON values surface in the same order as in the source. -/
def vmess_extract : JValue → Except String ConfigRec
  | .jobj kvs => do
    let port ← vmess_port kvs
    let ps ← asPyStr ((jlookup kvs ("ps".data)).getD (.jstr []))
    let ni := parse_config_name ps
    let server ← asPyStr ((jlookup kvs ("add".data)).getD (.jstr []))
    pure ⟨"vmess".data, stripWs server, port, ni.name, ni.country, ni.telegram_channel,
      ni.is_telegram⟩
  | _ => .error "AttributeError: payload is not a JSON object"

/-- Body of `parse_vmess` (lines 182-208). -/
def parse_vmess_core (s : PStr) : Except String ConfigRec := do
  let data ← vmess_json s
  vmess_extract data

/-- Translation of `parse_vmess`. -/
def parse_vmess (s : PStr) : Option ConfigRec := (parse_vmess_core s).toOption

/-- Translation of `parse_config` (lines 244-254): strip, then dispatch on
the literal scheme. -/
def parse_config (raw : PStr) : Option ConfigRec :=
  let r := stripWs raw
  if ("ss://".data).isPrefixOf r then parse_ss r
  else if ("vless://".data).isPrefixOf r then parse_vless r
  else if ("vmess://".data).isPrefixOf r then parse_vmess r
  else if ("trojan://".data).isPrefixOf r then parse_trojan r
  else none

/-! ### ConnectivityProber: `test_tcp_connection`

The network is an oracle: for each (normalized server, port) it yields the
outcome of the single connection attempt.  `success` carries the elapsed
wall-clock seconds and whether `wait_closed()` raises; every failing outcome
is caught by the blanket `except`. -/

/-- Outcome of one `asyncio.open_connection` attempt. -/
inductive ConnAttempt where
  | success (elapsedSec : Rat) (closeFails : Bool)
  | timeout
  | refused
  | dnsFailure
  | fault (msg : String)
deriving DecidableEq

/-- Python `round(x, 1)`: round half to even at one decimal (modelled
exactly on rationals; CPython rounds the binary double nearest to `x`). -/
def pyRound1 (x : Rat) : Rat :=
  let y := x * 10
  let n := Int.floor y
  let f := y - (n : Rat)
  let r : Int :=
    if f < 1 / 2 then n
    else if 1 / 2 < f then n + 1
    else if n % 2 = 0 then n else n + 1
  (r : Rat) / 10

/-- Result of `test_tcp_connection` as a function of the attempt outcome
(lines 256-274): success yields the rounded millisecond latency and the
inner `try/except pass` swallows close failures; everything else yields
`(False, -1)`. -/
def tcpResult : ConnAttempt → Bool × Rat
  | .success e _ => (true, pyRound1 (e * 1000))
  | _ => (false, -1)

/-- Translation of `test_tcp_connection`, including the
`server.strip("[]")` normalization before connecting. -/
def test_tcp_connection (net : PStr → Int → ConnAttempt) (server : PStr) (port : Int) :
    Bool × Rat :=
  tcpResult (net (stripSet ("[]".data) server) port)

/-! ### BatchOrchestrator: `test_batch`

`test_batch` builds one task per request config, guards each probe with
`asyncio.Semaphore(10)`, and joins with `asyncio.gather`, which returns the
results in task order.  The concurrency is modelled as a step relation: a
schedule picks which task advances; a pending task acquires a semaphore slot
(becoming in-flight) only when the count is positive, and a completion step
records the probe result and releases the slot.  `gather`'s join-all is the
`batchResults` accessor, defined only in all-done states. -/

/-- One request config: a JSON dict whose fields, when present, have the
shapes the spec's batch interface prescribes.  `Option` models key absence
(`cfg.get(k, default)`). -/
structure BatchCfg where
  id : Option PStr
  protocol : Option PStr
  server : Option PStr
  port : Option Int
  name : Option PStr
  country : Option PStr
  telegram_channel : Option (Option PStr)
  is_telegram : Option Bool
deriving DecidableEq, Repr

/-- The `TestResult` record (`tested_at` comes from the clock oracle). -/
structure TestResultRec where
  config_id : PStr
  protocol : PStr
  server : PStr
  port : Int
  name : PStr
  country : PStr
  telegram_channel : Option PStr
  is_telegram : Bool
  success : Bool
  latency_ms : Rat
  tested_at : PStr
deriving DecidableEq, Repr

/-- Translation of the inner `test_one` coroutine (lines 323-339). -/
def test_one (net : PStr → Int → ConnAttempt) (now : PStr) (cfg : BatchCfg) : TestResultRec :=
  let server := cfg.server.getD []
  let port := cfg.port.getD 443
  let sl := test_tcp_connection net server port
  { config_id := cfg.id.getD []
    protocol := cfg.protocol.getD []
    server := server
    port := port
    name := cfg.name.getD []
    country := cfg.country.getD []
    telegram_channel := cfg.telegram_channel.getD none
    is_telegram := cfg.is_telegram.getD false
    success := sl.1
    latency_ms := sl.2
    tested_at := now }

/-- Lifecycle of one scheduled `limited_test` task. -/
inductive TaskSt where
  | pending
  | running
  | done (r : TestResultRec)
deriving DecidableEq, Repr

/-- Shared state of a batch execution: the semaphore counter and one slot
per task (slot order is task order, which `asyncio.gather` preserves). -/
structure BatchState where
  sem : Nat
  tasks : List TaskSt
deriving DecidableEq, Repr

/-- Initial state: `asyncio.Semaphore(10)` and all tasks pending. -/
def batchInit (cfgs : List BatchCfg) : BatchState :=
  ⟨10, cfgs.map (fun _ => TaskSt.pending)⟩

/-- One scheduler step advancing task `i`: a pending task acquires the
semaphore when a slot is free (otherwise it stays blocked); an in-flight
task finishes its probe and releases the slot.  Other choices are no-ops. -/
def batchStep (net : PStr → Int → ConnAttempt) (now : PStr) (cfgs : List BatchCfg)
    (st : BatchState) (i : Nat) : BatchState :=
  match st.tasks.get? i, cfgs.get? i with
  | some .pending, some _ =>
    if 0 < st.sem then ⟨st.sem - 1, st.tasks.set i .running⟩ else st
  | some .running, some cfg => ⟨st.sem + 1, st.tasks.set i (.done (test_one net now cfg))⟩
  | _, _ => st

/-- Execution of a batch under a given schedule. -/
def batchRun (net : PStr → Int → ConnAttempt) (now : PStr) (cfgs : List BatchCfg)
    (sched : List Nat) : BatchState :=
  sched.foldl (batchStep net now cfgs) (batchInit cfgs)

/-- Whether a task currently holds a semaphore slot (probe in flight). -/
def isRunning : TaskSt → Bool
  | .running => true
  | _ => false

/-- Whether a task has delivered its result. -/
def isDone : TaskSt → Bool
  | .done _ => true
  | _ => false

/-- Result of a finished task. -/
def getDone : TaskSt → Option TestResultRec
  | .done r => some r
  | _ => none

/-- Number of concurrently in-flight probes. -/
def inFlight (st : BatchState) : Nat := (st.tasks.filter isRunning).length

/-- All scheduled probes have finished. -/
def allDone (st : BatchState) : Bool := st.tasks.all isDone

/-- The list `asyncio.gather` returns: available exactly when every task is
done, in task order. -/
def batchResults (st : BatchState) : Option (List TestResultRec) :=
  if allDone st then some (st.tasks.filterMap getDone) else none

/-- The `config_id` tag a result gets: `cfg.get("id", "")`. -/
def cfgIdOf (cfg : BatchCfg) : PStr := cfg.id.getD []

/-- Channel truncation as the spec's words describe case (c) of the
telegram cascade: from the `@` to the end, truncated at the first
subsequent `::` or `:` — whichever comes first — and trimmed.  (Spec-side
definition, to be compared with the decoder's
`split("::")[0].split(":")[0].strip()`.) -/
def c8SpecChannel (atPart : PStr) : PStr :=
  stripWs (atPart.take
    (min (((findSub ("::".data) atPart).getD atPart.length))
      ((idxOfChar ':' atPart).getD atPart.length)))

/-! ### String-primitive lemmas -/

theorem idxOfChar_eq_none {c : Char} : ∀ {l : PStr}, c ∉ l → idxOfChar c l = none := by
  intro l
  induction l with
  | nil => intro _; rfl
  | cons a t ih =>
    intro h
    have ha : ¬(a = c) := fun hh => h (hh ▸ List.mem_cons_self a t)
    simp only [idxOfChar, if_neg ha, ih (fun hm => h (List.mem_cons_of_mem a hm))]
    rfl

theorem idxOfChar_append {c : Char} : ∀ (l1 l2 : PStr), c ∉ l1 →
    idxOfChar c (l1 ++ c :: l2) = some l1.length := by
  intro l1
  induction l1 with
  | nil => intro l2 _; simp [idxOfChar]
  | cons a t ih =>
    intro l2 h
    have ha : ¬(a = c) := fun hh => h (hh ▸ List.mem_cons_self a t)
    simp [idxOfChar, ha, ih l2 (fun hm => h (List.mem_cons_of_mem a hm))]

theorem lastIdxOfChar_eq_none {c : Char} : ∀ {l : PStr}, c ∉ l → lastIdxOfChar c l = none := by
  intro l
  induction l with
  | nil => intro _; rfl
  | cons a t ih =>
    intro h
    have ha : ¬(a = c) := fun hh => h (hh ▸ List.mem_cons_self a t)
    simp only [lastIdxOfChar, ih (fun hm => h (List.mem_cons_of_mem a hm)), if_neg ha]

theorem lastIdxOfChar_append {c : Char} : ∀ (l1 l2 : PStr), c ∉ l2 →
    lastIdxOfChar c (l1 ++ c :: l2) = some l1.length := by
  intro l1
  induction l1 with
  | nil =>
    intro l2 h
    simp only [List.nil_append, lastIdxOfChar, lastIdxOfChar_eq_none h, if_pos rfl]
    rfl
  | cons a t ih =>
    intro l2 h
    simp [lastIdxOfChar, ih l2 h]

theorem splitFirstChar_append {c : Char} (l1 l2 : PStr) (h : c ∉ l1) :
    splitFirstChar c (l1 ++ c :: l2) = some (l1, l2) := by
  rw [splitFirstChar, idxOfChar_append l1 l2 h]
  show some ((l1 ++ c :: l2).take l1.length, (l1 ++ c :: l2).drop (l1.length + 1)) = _
  rw [List.take_left]
  rw [show l1 ++ c :: l2 = (l1 ++ [c]) ++ l2 from by simp]
  rw [List.drop_left' (by simp)]

theorem splitLastChar_append {c : Char} (l1 l2 : PStr) (h : c ∉ l2) :
    splitLastChar c (l1 ++ c :: l2) = some (l1, l2) := by
  rw [splitLastChar, lastIdxOfChar_append l1 l2 h]
  show some ((l1 ++ c :: l2).take l1.length, (l1 ++ c :: l2).drop (l1.length + 1)) = _
  rw [List.take_left]
  rw [show l1 ++ c :: l2 = (l1 ++ [c]) ++ l2 from by simp]
  rw [List.drop_left' (by simp)]

theorem takeUntilChar_of_not_mem {c : Char} {l : PStr} (h : c ∉ l) :
    takeUntilChar c l = l := by
  rw [takeUntilChar, idxOfChar_eq_none h]

theorem contains_eq_false {c : Char} {l : PStr} (h : c ∉ l) : l.contains c = false := by
  simpa using h

theorem contains_eq_true {c : Char} {l : PStr} (h : c ∈ l) : l.contains c = true :=
  List.elem_iff.2 h

theorem rstripChar_of_getLast {c : Char} {l : PStr}
    (h : ∀ d, l.getLast? = some d → d ≠ c) : rstripChar c l = l := by
  rw [rstripChar]
  cases hr : l.reverse with
  | nil =>
    have : l = [] := by simpa using congrArg List.reverse hr
    simp [this]
  | cons d t =>
    have hd : l.getLast? = some d := by
      rw [← List.head?_reverse, hr]
      rfl
    have hdc : ¬(d = c) := h d hd
    rw [List.dropWhile_cons, if_neg (by simp [hdc])]
    rw [← hr, List.reverse_reverse]

theorem lstripWs_of_head {l : PStr} (h : ∀ d, l.head? = some d → isPyWs d = false) :
    lstripWs l = l := by
  cases l with
  | nil => rfl
  | cons a t =>
    rw [lstripWs, List.dropWhile_cons]
    simp [h a rfl]

theorem rstripWs_of_getLast {l : PStr} (h : ∀ d, l.getLast? = some d → isPyWs d = false) :
    rstripWs l = l := by
  rw [rstripWs]
  cases hr : l.reverse with
  | nil =>
    have : l = [] := by simpa using congrArg List.reverse hr
    simp [this]
  | cons d t =>
    have hd : l.getLast? = some d := by
      rw [← List.head?_reverse, hr]
      rfl
    rw [List.dropWhile_cons, if_neg (by simp [h d hd])]
    rw [← hr, List.reverse_reverse]

theorem except_bind_ok {e a b : Type} (x : a) (f : a → Except e b) :
    (Except.ok x : Except e a) >>= f = f x := rfl

theorem stripWs_eq_self {l : PStr} (h1 : ∀ d, l.head? = some d → isPyWs d = false)
    (h2 : ∀ d, l.getLast? = some d → isPyWs d = false) : stripWs l = l := by
  rw [stripWs, lstripWs_of_head h1, rstripWs_of_getLast h2]

/-! ### Batch invariants -/

/-- Counting a filter across a single `set`, without subtraction. -/
theorem length_filter_set {α : Type} (p : α → Bool) :
    ∀ (l : List α) (i : Nat) (t t' : α), l.get? i = some t →
      ((l.set i t').filter p).length + (if p t then 1 else 0) =
        (l.filter p).length + (if p t' then 1 else 0) := by
  intro l
  induction l with
  | nil => intro i t t' h; simp at h
  | cons a tl ih =>
    intro i t t' h
    cases i with
    | zero =>
      have h2 : t = a := by
        simp only [List.get?] at h
        exact (Option.some.inj h).symm
      subst h2
      simp only [List.set, List.filter_cons]
      cases hpa : p t <;> cases hpt : p t' <;> simp [hpa, hpt]
    | succ j =>
      simp only [List.get?] at h
      simp only [List.set, List.filter_cons]
      have hih := ih j t t' h
      cases hpa : p a <;> simp [hpa] <;> omega

/-- What a task slot may hold: not yet started, in flight, or the finished
probe result of its own config. -/
def TaskOk (net : PStr → Int → ConnAttempt) (now : PStr) (cfgs : List BatchCfg) (i : Nat)
    (t : TaskSt) : Prop :=
  t = .pending ∨ t = .running ∨ ∃ cfg, cfgs.get? i = some cfg ∧ t = .done (test_one net now cfg)

/-- Execution invariant of `test_batch`: one slot per config, the semaphore
counter plus the in-flight count equals `asyncio.Semaphore(10)`'s capacity,
and every slot is in a legal state. -/
def BatchInv (net : PStr → Int → ConnAttempt) (now : PStr) (cfgs : List BatchCfg)
    (st : BatchState) : Prop :=
  st.tasks.length = cfgs.length ∧ st.sem + inFlight st = 10 ∧
    ∀ i t, st.tasks.get? i = some t → TaskOk net now cfgs i t

theorem batchInit_inv (net : PStr → Int → ConnAttempt) (now : PStr) (cfgs : List BatchCfg) :
    BatchInv net now cfgs (batchInit cfgs) := by
  refine ⟨by simp [batchInit], ?_, ?_⟩
  · have hnil : ∀ (l : List BatchCfg),
        (l.map (fun _ => TaskSt.pending)).filter isRunning = [] := by
      intro l
      induction l with
      | nil => rfl
      | cons c tl ih => simpa [List.map_cons, List.filter_cons, isRunning] using ih
    show (batchInit cfgs).sem +
        (((batchInit cfgs).tasks.filter isRunning).length) = 10
    rw [show (batchInit cfgs).tasks = cfgs.map (fun _ => TaskSt.pending) from rfl, hnil cfgs]
    rfl
  · intro i t h
    simp only [batchInit, List.get?_map] at h
    cases hc : cfgs.get? i with
    | none => rw [hc] at h; cases h
    | some cfg => rw [hc] at h; cases h; exact Or.inl rfl

theorem batchStep_inv (net : PStr → Int → ConnAttempt) (now : PStr) (cfgs : List BatchCfg)
    (st : BatchState) (i : Nat) (h : BatchInv net now cfgs st) :
    BatchInv net now cfgs (batchStep net now cfgs st i) := by
  obtain ⟨hlen, hsem, hok⟩ := h
  unfold batchStep
  cases ht : st.tasks.get? i with
  | none => exact ⟨hlen, hsem, hok⟩
  | some t =>
    cases hc : cfgs.get? i with
    | none =>
      cases t with
      | pending => exact ⟨hlen, hsem, hok⟩
      | running => exact ⟨hlen, hsem, hok⟩
      | done r => exact ⟨hlen, hsem, hok⟩
    | some cfg =>
      have hcount := length_filter_set isRunning st.tasks i t
      have hset : ∀ t' j u, (st.tasks.set i t').get? j = some u →
          (j = i ∧ u = t') ∨ (j ≠ i ∧ st.tasks.get? j = some u) := by
        intro t' j u hj
        by_cases hji : j = i
        · subst hji
          rw [List.get?_set_eq, ht] at hj
          have hj2 : some t' = some u := hj
          exact Or.inl ⟨rfl, (Option.some.inj hj2).symm⟩
        · rw [List.get?_set_ne _ _ (Ne.symm hji)] at hj
          exact Or.inr ⟨hji, hj⟩
      cases t with
      | pending =>
        by_cases hs : 0 < st.sem
        · simp only [hs, if_true]
          refine ⟨by simpa using hlen, ?_, ?_⟩
          · have hc2 := hcount TaskSt.running ht
            simp [isRunning] at hc2
            simp only [inFlight] at hsem ⊢
            omega
          · intro j u hj
            rcases hset TaskSt.running j u hj with ⟨_, rfl⟩ | ⟨_, hju⟩
            · exact Or.inr (Or.inl rfl)
            · exact hok j u hju
        · simp only [hs, if_false]
          exact ⟨hlen, hsem, hok⟩
      | running =>
        refine ⟨by simpa using hlen, ?_, ?_⟩
        · have hc2 := hcount (TaskSt.done (test_one net now cfg)) ht
          simp [isRunning] at hc2
          simp only [inFlight] at hsem ⊢
          omega
        · intro j u hj
          rcases hset (TaskSt.done (test_one net now cfg)) j u hj with ⟨rfl, rfl⟩ | ⟨_, hju⟩
          · exact Or.inr (Or.inr ⟨cfg, hc, rfl⟩)
          · exact hok j u hju
      | done r => exact ⟨hlen, hsem, hok⟩

theorem batchRun_inv (net : PStr → Int → ConnAttempt) (now : PStr) (cfgs : List BatchCfg)
    (sched : List Nat) : BatchInv net now cfgs (batchRun net now cfgs sched) := by
  suffices h : ∀ st, BatchInv net now cfgs st →
      BatchInv net now cfgs (sched.foldl (batchStep net now cfgs) st) from
    h _ (batchInit_inv net now cfgs)
  induction sched with
  | nil => intro st hst; exact hst
  | cons i tl ih =>
    intro st hst
    exact ih _ (batchStep_inv net now cfgs st i hst)

/-- In an all-done invariant state the slots are exactly the probe results
of the configs, in order. -/
theorem allDone_results (net : PStr → Int → ConnAttempt) (now : PStr) (cfgs : List BatchCfg)
    (st : BatchState) (hinv : BatchInv net now cfgs st) (hd : allDone st = true) :
    batchResults st = some (cfgs.map (test_one net now)) := by
  obtain ⟨hlen, _, hok⟩ := hinv
  have htasks : st.tasks = cfgs.map (fun c => TaskSt.done (test_one net now c)) := by
    apply List.ext_get?
    intro j
    cases hj : st.tasks.get? j with
    | none =>
      have hle : st.tasks.length ≤ j := List.get?_eq_none.1 hj
      symm
      refine List.get?_eq_none.2 ?_
      simp only [List.length_map]
      omega
    | some t =>
      have hdone : isDone t = true := by
        have := List.all_eq_true.1 hd t (List.get?_mem hj)
        exact this
      rcases hok j t hj with rfl | rfl | ⟨cfg, hcfg, rfl⟩
      · cases hdone
      · cases hdone
      · symm
        rw [List.get?_map, hcfg]
        rfl
  rw [batchResults, if_pos hd, htasks, List.filterMap_map]
  rw [show getDone ∘ (fun c => TaskSt.done (test_one net now c)) =
      some ∘ (test_one net now) from rfl]
  rw [List.filterMap_eq_map]

/-! ### Claim theorems for the batch orchestrator -/

/-- C9: during every execution of `test_batch` (every schedule of the step
model), at most 10 probes are in flight at any reachable instant, and when
10 are in flight a further pending probe cannot advance: its acquire step is
disabled until a completion step frees a slot. -/
theorem batch_concurrency_cap (net : PStr → Int → ConnAttempt) (now : PStr)
    (cfgs : List BatchCfg) (sched : List Nat) :
    inFlight (batchRun net now cfgs sched) ≤ 10 ∧
      (inFlight (batchRun net now cfgs sched) = 10 →
        ∀ i, (batchRun net now cfgs sched).tasks.get? i = some TaskSt.pending →
          batchStep net now cfgs (batchRun net now cfgs sched) i =
            batchRun net now cfgs sched) := by
  obtain ⟨hlen, hsem, hok⟩ := batchRun_inv net now cfgs sched
  constructor
  · omega
  · intro hfull i hp
    have hs0 : (batchRun net now cfgs sched).sem = 0 := by omega
    unfold batchStep
    rw [hp]
    cases hc : cfgs.get? i with
    | none => rfl
    | some cfg => rw [hs0]; simp

/-- Witness for C9: with 11 configs and the schedule that starts tasks
0..10, exactly 10 probes are in flight and the 11th task's acquire step is a
no-op. -/
theorem batch_concurrency_cap_witness :
    inFlight (batchRun (fun _ _ => ConnAttempt.timeout) []
        (List.replicate 11 ⟨none, none, none, none, none, none, none, none⟩)
        (List.range 11)) ≤ 10 ∧
      batchStep (fun _ _ => ConnAttempt.timeout) []
        (List.replicate 11 ⟨none, none, none, none, none, none, none, none⟩)
        (batchRun (fun _ _ => ConnAttempt.timeout) []
          (List.replicate 11 ⟨none, none, none, none, none, none, none, none⟩)
          (List.range 11)) 10 =
        batchRun (fun _ _ => ConnAttempt.timeout) []
          (List.replicate 11 ⟨none, none, none, none, none, none, none, none⟩)
          (List.range 11) :=
  ⟨(batch_concurrency_cap (fun _ _ => ConnAttempt.timeout) []
      (List.replicate 11 ⟨none, none, none, none, none, none, none, none⟩)
      (List.range 11)).1,
   (batch_concurrency_cap (fun _ _ => ConnAttempt.timeout) []
      (List.replicate 11 ⟨none, none, none, none, none, none, none, none⟩)
      (List.range 11)).2 (by decide) 10 (by decide)⟩

/-- C2: `test_batch` hands out its result list only once every scheduled
probe has finished (no partial early return), and then returns exactly one
result per input config — the probe result of that config, tagged with the
config's id — so the result count is the input count, the `config_id`
multiset is the input id multiset, and distinct input ids give distinct
`config_id`s. -/
theorem batch_results_complete (net : PStr → Int → ConnAttempt) (now : PStr)
    (cfgs : List BatchCfg) (sched : List Nat) :
    ((batchResults (batchRun net now cfgs sched)).isSome ↔
        allDone (batchRun net now cfgs sched) = true) ∧
      (allDone (batchRun net now cfgs sched) = true →
        batchResults (batchRun net now cfgs sched) = some (cfgs.map (test_one net now)) ∧
          (cfgs.map (test_one net now)).length = cfgs.length ∧
          (cfgs.map (test_one net now)).map TestResultRec.config_id = cfgs.map cfgIdOf ∧
          ((cfgs.map cfgIdOf).Nodup →
            ((cfgs.map (test_one net now)).map TestResultRec.config_id).Nodup)) := by
  constructor
  · cases hd : allDone (batchRun net now cfgs sched) <;> simp [batchResults, hd]
  · intro hd
    refine ⟨allDone_results net now cfgs _ (batchRun_inv net now cfgs sched) hd, ?_, ?_, ?_⟩
    · simp
    · rw [List.map_map]
      rfl
    · intro hnd
      rw [List.map_map]
      exact hnd

/-- Witness for C2: a completed two-config batch returns both results with
the input ids. -/
theorem batch_results_complete_witness :
    batchResults (batchRun (fun _ _ => ConnAttempt.timeout) []
        [⟨some ("a".data), none, some ("h1".data), some 80, none, none, none, none⟩,
         ⟨some ("b".data), none, some ("h2".data), some 81, none, none, none, none⟩]
        [0, 0, 1, 1]) =
      some ([⟨some ("a".data), none, some ("h1".data), some 80, none, none, none, none⟩,
             ⟨some ("b".data), none, some ("h2".data), some 81, none, none, none,
               none⟩].map (test_one (fun _ _ => ConnAttempt.timeout) [])) :=
  ((batch_results_complete (fun _ _ => ConnAttempt.timeout) []
      [⟨some ("a".data), none, some ("h1".data), some 80, none, none, none, none⟩,
       ⟨some ("b".data), none, some ("h2".data), some 81, none, none, none, none⟩]
      [0, 0, 1, 1]).2 (by decide)).1

/-- C10: a completed `test_batch` returns its results in input order — the
i-th result is the probe result built from the i-th input config (a
property of `asyncio.gather`'s task-order result list that the spec
declines to guarantee). -/
theorem batch_results_ordered (net : PStr → Int → ConnAttempt) (now : PStr)
    (cfgs : List BatchCfg) (sched : List Nat)
    (hd : allDone (batchRun net now cfgs sched) = true) :
    ∃ rs, batchResults (batchRun net now cfgs sched) = some rs ∧
      ∀ i (h1 : i < cfgs.length),
        rs.get? i = some (test_one net now (cfgs.get ⟨i, h1⟩)) := by
  refine ⟨cfgs.map (test_one net now),
    allDone_results net now cfgs _ (batchRun_inv net now cfgs sched) hd, ?_⟩
  intro i h1
  rw [List.get?_map, List.get?_eq_get h1]
  rfl

/-- Witness for C10: a two-config batch completed out of order (task 1
finishes before task 0) still lists the result of config 0 first. -/
theorem batch_results_ordered_witness :
    ∃ rs, batchResults (batchRun (fun _ _ => ConnAttempt.timeout) []
        [⟨some ("a".data), none, some ("h1".data), some 80, none, none, none, none⟩,
         ⟨some ("b".data), none, some ("h2".data), some 81, none, none, none, none⟩]
        [1, 1, 0, 0]) = some rs ∧
      ∀ i (h1 : i < ([⟨some ("a".data), none, some ("h1".data), some 80, none, none, none,
            none⟩,
          ⟨some ("b".data), none, some ("h2".data), some 81, none, none, none, none⟩] :
            List BatchCfg).length),
        rs.get? i = some (test_one (fun _ _ => ConnAttempt.timeout) []
          (([⟨some ("a".data), none, some ("h1".data), some 80, none, none, none, none⟩,
             ⟨some ("b".data), none, some ("h2".data), some 81, none, none, none, none⟩] :
               List BatchCfg).get ⟨i, h1⟩)) :=
  batch_results_ordered (fun _ _ => ConnAttempt.timeout) []
    [⟨some ("a".data), none, some ("h1".data), some 80, none, none, none, none⟩,
     ⟨some ("b".data), none, some ("h2".data), some 81, none, none, none, none⟩]
    [1, 1, 0, 0] (by decide)

/-! ### Claim theorems for the prober and the dispatcher -/

/-- C3: `test_tcp_connection` returns `(true, latency rounded to one
decimal)` exactly when the connection attempt succeeds and `(false, -1)` on
timeout, refusal, DNS failure or any other fault; it is a total function
(no exception reaches the caller), and a failure while releasing the
connection after success does not change the result. -/
theorem tcp_connection_result (net : PStr → Int → ConnAttempt) (server : PStr) (port : Int) :
    (test_tcp_connection net server port = (false, -1) ∨
      ∃ e cf, net (stripSet ("[]".data) server) port = ConnAttempt.success e cf ∧
        test_tcp_connection net server port = (true, pyRound1 (e * 1000))) ∧
    (∀ e : Rat,
      test_tcp_connection (fun _ _ => ConnAttempt.success e true) server port =
        test_tcp_connection (fun _ _ => ConnAttempt.success e false) server port) ∧
    (∀ msg, tcpResult (ConnAttempt.fault msg) = (false, -1)) ∧
    tcpResult ConnAttempt.timeout = (false, -1) ∧
    tcpResult ConnAttempt.refused = (false, -1) ∧
    tcpResult ConnAttempt.dnsFailure = (false, -1) := by
  refine ⟨?_, fun e => rfl, fun msg => rfl, rfl, rfl, rfl⟩
  cases h : net (stripSet ("[]".data) server) port with
  | success e cf =>
    exact Or.inr ⟨e, cf, rfl, by simp [test_tcp_connection, h, tcpResult]⟩
  | timeout => exact Or.inl (by simp [test_tcp_connection, h, tcpResult])
  | refused => exact Or.inl (by simp [test_tcp_connection, h, tcpResult])
  | dnsFailure => exact Or.inl (by simp [test_tcp_connection, h, tcpResult])
  | fault msg => exact Or.inl (by simp [test_tcp_connection, h, tcpResult])

/-- C1: `parse_config` and each protocol decoder are total `Option`-valued
functions — every input yields a record or no record, never a fault — and
lines with an unmatched scheme or malformed content (the spec's examples:
a bare `ss://`, non-base64 vmess, unknown scheme, a non-numeric port, a
missing `@` delimiter, a non-JSON vmess payload) yield no record. -/
theorem parse_config_total_and_malformed :
    (∀ s : PStr, parse_config s = none ∨ ∃ r, parse_config s = some r) ∧
    (∀ s : PStr, parse_ss s = none ∨ ∃ r, parse_ss s = some r) ∧
    (∀ s : PStr, parse_vless s = none ∨ ∃ r, parse_vless s = some r) ∧
    (∀ s : PStr, parse_vmess s = none ∨ ∃ r, parse_vmess s = some r) ∧
    (∀ s : PStr, parse_trojan s = none ∨ ∃ r, parse_trojan s = some r) ∧
    parse_config ("ss://".data) = none ∧
    parse_config ("vmess://not-base64!!".data) = none ∧
    parse_config ("foo://x.example:443".data) = none ∧
    parse_config ("ss://a@h:xx".data) = none ∧
    parse_config ("trojan://nobody".data) = none ∧
    parse_config ("vmess://YWJj".data) = none := by
  have htot : ∀ {α : Type} (o : Option α), o = none ∨ ∃ r, o = some r := by
    intro α o
    cases o with
    | none => exact Or.inl rfl
    | some r => exact Or.inr ⟨r, rfl⟩
  exact ⟨fun s => htot _, fun s => htot _, fun s => htot _, fun s => htot _, fun s => htot _,
    by decide, by decide, by decide, by decide, by decide, by decide⟩

/-- Counterexample to C4: the shadowsocks decoder produces a record with
port 70000, outside [1, 65535]. -/
theorem port_range_counterexample :
    ∃ r, parse_ss ("ss://x@h:70000".data) = some r ∧ ¬(1 ≤ r.port ∧ r.port ≤ 65535) :=
  ⟨⟨"shadowsocks".data, "h".data, 70000, [], [], none, false⟩, by decide, by decide⟩

/-- C4 as amended: the port field of a decoded record is an integer, but it
is not constrained to [1, 65535]; the decoders parse it with `int()` and
perform no range validation, so out-of-range ports such as 70000, 0 and -1
are produced (by every protocol's port path, including the vmess JSON
payload). -/
theorem port_no_range_check :
    (∃ r, parse_ss ("ss://x@h:70000".data) = some r ∧ r.port = 70000) ∧
    (∃ r, parse_ss ("ss://x@h:0".data) = some r ∧ r.port = 0) ∧
    (∃ r, parse_trojan ("trojan://x@h:-1".data) = some r ∧ r.port = -1) ∧
    (∃ r, parse_vless ("vless://x@h:70000".data) = some r ∧ r.port = 70000) ∧
    (∃ r, parse_vmess ("vmess://eyJwb3J0Ijo3MDAwMH0=".data) = some r ∧ r.port = 70000) := by
  refine ⟨⟨⟨"shadowsocks".data, "h".data, 70000, [], [], none, false⟩, by decide, by decide⟩,
    ⟨⟨"shadowsocks".data, "h".data, 0, [], [], none, false⟩, by decide, by decide⟩,
    ⟨⟨"trojan".data, "h".data, -1, [], [], none, false⟩, by decide, by decide⟩,
    ⟨⟨"vless".data, "h".data, 70000, [], [], none, false⟩, by decide, by decide⟩,
    ⟨⟨"vmess".data, [], 70000, [], [], none, false⟩, by decide, by decide⟩⟩

/-! ### Claim theorems for the vmess decoder defaults -/

/-- Counterexample to C7: the line `vmess://eyJwcyI6NX0=` has a base64
payload decoding to the JSON object `\x7b"ps":5\x7d`, which lacks the
`port` key, yet the decoder produces no record (port 443 or not): the
non-string `ps` value makes `unquote(ps)` raise, voiding the record. -/
theorem vmess_defaults_counterexample :
    vmess_json ("vmess://eyJwcyI6NX0=".data) =
      Except.ok (JValue.jobj [("ps".data, JValue.jint 5)]) ∧
    jlookup [(("ps".data : PStr), JValue.jint 5)] ("port".data) = none ∧
    parse_vmess ("vmess://eyJwcyI6NX0=".data) = none :=
  ⟨rfl, rfl, by decide⟩

/-- C7 as amended: for every vmess line whose base64 payload decodes to a
JSON object in which the `port` value (when present) is `int()`-convertible
and the `ps` and `add` values (when present) are strings, the decoder
produces a record; lacking `port` yields port = 443 and lacking `add`
yields server = "" (the empty string).  A non-string `ps` or `add`, or an
unconvertible `port`, voids the record instead. -/
theorem vmess_missing_defaults (s : PStr) (kvs : List (PStr × JValue))
    (hjson : vmess_json s = Except.ok (JValue.jobj kvs))
    (hport : ∀ v, jlookup kvs ("port".data) = some v → ∃ n, pyIntOfJValue v = Except.ok n)
    (hps : ∀ v, jlookup kvs ("ps".data) = some v → ∃ str, v = JValue.jstr str)
    (hadd : ∀ v, jlookup kvs ("add".data) = some v → ∃ str, v = JValue.jstr str) :
    (∃ r, parse_vmess s = some r) ∧
    (jlookup kvs ("port".data) = none → ∃ r, parse_vmess s = some r ∧ r.port = 443) ∧
    (jlookup kvs ("add".data) = none → ∃ r, parse_vmess s = some r ∧ r.server = []) := by
  have hportE : ∃ n, vmess_port kvs = Except.ok n ∧
      (jlookup kvs ("port".data) = none → n = 443) := by
    cases hp : jlookup kvs ("port".data) with
    | none =>
      refine ⟨443, ?_, fun _ => rfl⟩
      unfold vmess_port
      rw [hp]
      rfl
    | some v =>
      obtain ⟨n, hn⟩ := hport v hp
      refine ⟨n, ?_, ?_⟩
      · unfold vmess_port
        rw [hp]
        exact hn
      · intro h
        simp [hp] at h
  have hpsE : ∃ p, asPyStr ((jlookup kvs ("ps".data)).getD (JValue.jstr [])) =
      Except.ok p := by
    cases hp : jlookup kvs ("ps".data) with
    | none => exact ⟨[], rfl⟩
    | some v =>
      obtain ⟨str, rfl⟩ := hps v hp
      exact ⟨str, rfl⟩
  have haddE : ∃ a, asPyStr ((jlookup kvs ("add".data)).getD (JValue.jstr [])) =
      Except.ok a ∧ (jlookup kvs ("add".data) = none → a = []) := by
    cases hp : jlookup kvs ("add".data) with
    | none => exact ⟨[], rfl, fun _ => rfl⟩
    | some v =>
      obtain ⟨str, rfl⟩ := hadd v hp
      refine ⟨str, rfl, ?_⟩
      intro h
      simp [hp] at h
  obtain ⟨n, hn, hn443⟩ := hportE
  obtain ⟨p, hpOk⟩ := hpsE
  obtain ⟨a, haOk, ha0⟩ := haddE
  have hrec : parse_vmess s = some ⟨"vmess".data, stripWs a, n, (parse_config_name p).name,
      (parse_config_name p).country, (parse_config_name p).telegram_channel,
      (parse_config_name p).is_telegram⟩ := by
    unfold parse_vmess parse_vmess_core
    rw [hjson]
    show (vmess_extract (JValue.jobj kvs)).toOption = _
    simp only [vmess_extract]
    rw [hn, hpOk, haOk]
    rfl
  refine ⟨⟨_, hrec⟩, ?_, ?_⟩
  · intro h
    exact ⟨_, hrec, by simp [hn443 h]⟩
  · intro h
    refine ⟨_, hrec, ?_⟩
    simp [ha0 h, stripWs, lstripWs, rstripWs]

/-- Witness for the amended C7: the empty JSON object payload `vmess://e30`
yields a record with port 443 and empty server. -/
theorem vmess_missing_defaults_witness :
    (∃ r, parse_vmess ("vmess://e30".data) = some r ∧ r.port = 443) ∧
    (∃ r, parse_vmess ("vmess://e30".data) = some r ∧ r.server = []) :=
  ⟨(vmess_missing_defaults ("vmess://e30".data) [] rfl (fun _ h => nomatch h)
      (fun _ h => nomatch h) (fun _ h => nomatch h)).2.1 rfl,
   (vmess_missing_defaults ("vmess://e30".data) [] rfl (fun _ h => nomatch h)
      (fun _ h => nomatch h) (fun _ h => nomatch h)).2.2 rfl⟩

/-! ### Claim theorems for the vless/trojan bracket handling -/

theorem head?_take (l : PStr) (n : Nat) : (l.take (n + 1)).head? = l.head? := by
  cases l <;> rfl

theorem idxOfChar_get? {c : Char} : ∀ {l : PStr} {i : Nat},
    idxOfChar c l = some i → l.get? i = some c := by
  intro l
  induction l with
  | nil => intro i h; cases h
  | cons a t ih =>
    intro i h
    by_cases ha : a = c
    · rw [idxOfChar, if_pos ha] at h
      cases h
      simp [ha]
    · rw [idxOfChar, if_neg ha] at h
      cases hi : idxOfChar c t with
      | none => rw [hi] at h; cases h
      | some j =>
        rw [hi] at h
        cases h
        simpa using ih hi

theorem getLast?_take_of_get? {c : Char} {l : PStr} {i : Nat} (h : l.get? i = some c) :
    (l.take (i + 1)).getLast? = some c := by
  have hlt : i < l.length := (List.get?_eq_some.1 h).1
  rw [List.getLast?_eq_get?]
  have hlen : (l.take (i + 1)).length = i + 1 := by
    rw [List.length_take]
    omega
  rw [hlen]
  simpa [List.get?_take (by omega : i < i + 1)] using h

/-- Counterexample to C5: on a trojan line whose host is a bracketed IPv6
literal with no following port, the trojan decoder yields no record (the
last-`:` split leaves the non-numeric `1]`), while the vless decoder, on the
same host, returns the bracketed server with port 443; the two decoders are
not identical apart from prefix length. -/
theorem trojan_bracket_counterexample :
    parse_trojan ("trojan://u@[2001:db8::1]".data) = none ∧
    parse_vless ("vless://u@[2001:db8::1]".data) =
      some ⟨"vless".data, "[2001:db8::1]".data, 443, [], [], none, false⟩ :=
  ⟨by decide, by decide⟩

/-- C5 as amended: the bracket rule holds for the vless decoder — for every
vless line whose body (after splitting off the `#` fragment) is
`u@host` with `@` not in `u`, and whose cleaned host part begins with `[`
and has its first `]` as last character (no `:port` follows), the decoder
takes up to and including the `]` as server and defaults the port to 443.
The trojan decoder has no bracket handling: the same bracketed host without
a port yields no record there. -/
theorem vless_bracket_rule (u host frag : PStr) (be : Nat)
    (hu1 : '@' ∉ u) (hu2 : '#' ∉ u) (hh : '#' ∉ host)
    (hbr : (url_clean host).head? = some '[')
    (hbe : idxOfChar ']' (url_clean host) = some be)
    (hnp : (url_clean host).drop (be + 1) = []) :
    (∃ r, parse_vless (("vless://".data) ++ u ++ '@' :: host ++ '#' :: frag) = some r ∧
        r.server = (url_clean host).take (be + 1) ∧ r.port = 443) ∧
    parse_trojan ("trojan://u@[2001:db8::1]".data) = none := by
  refine ⟨?_, by decide⟩
  have hdrop : (("vless://".data) ++ u ++ '@' :: host ++ '#' :: frag).drop 8 =
      (u ++ '@' :: host) ++ '#' :: frag := by
    rw [show ("vless://".data) ++ u ++ '@' :: host ++ '#' :: frag =
        ("vless://".data) ++ ((u ++ '@' :: host) ++ '#' :: frag) from by simp]
    exact List.drop_left' (by decide)
  have hhash : splitFirstChar '#' ((u ++ '@' :: host) ++ '#' :: frag) =
      some (u ++ '@' :: host, frag) := by
    apply splitFirstChar_append
    intro hmem
    rcases List.mem_append.1 hmem with hm | hm
    · exact hu2 hm
    · rcases List.mem_cons.1 hm with he | hm2
      · exact absurd he (by decide)
      · exact hh hm2
  have hat : splitFirstChar '@' (u ++ '@' :: host) = some (u, host) :=
    splitFirstChar_append _ _ hu1
  have hget : (url_clean host).get? be = some ']' := idxOfChar_get? hbe
  have hstrip : stripWs ((url_clean host).take (be + 1)) = (url_clean host).take (be + 1) := by
    apply stripWs_eq_self
    · intro d hd
      rw [head?_take, hbr] at hd
      cases hd
      decide
    · intro d hd
      rw [getLast?_take_of_get? hget] at hd
      cases hd
      decide
  have hsplit : split_hash 8 (("vless://".data) ++ u ++ '@' :: host ++ '#' :: frag) =
      (u ++ '@' :: host, frag) := by
    unfold split_hash
    rw [hdrop, hhash]
  have hvp : vless_hostport (url_clean host) =
      Except.ok ((url_clean host).take (be + 1), (443 : Int)) := by
    unfold vless_hostport
    rw [hbr, if_pos rfl, hbe]
    simp only [hnp]
    rw [if_neg (by decide)]
    rfl
  refine ⟨⟨"vless".data, (url_clean host).take (be + 1), 443, (parse_config_name frag).name,
      (parse_config_name frag).country, (parse_config_name frag).telegram_channel,
      (parse_config_name frag).is_telegram⟩, ?_, rfl, rfl⟩
  unfold parse_vless parse_vless_core
  simp only [hsplit, hat, hvp, except_bind_ok, mkRec, hstrip]
  rfl

/-- Witness for the amended C5: a concrete vless line with bracketed IPv6
host, query string and fragment gets server `[2001:db8::1]` and port 443. -/
theorem vless_bracket_rule_witness :
    ∃ r, parse_vless (("vless://".data) ++ ("u".data) ++ '@' :: ("[2001:db8::1]?x".data) ++
        '#' :: ("N".data)) = some r ∧
      r.server = (url_clean ("[2001:db8::1]?x".data)).take (12 + 1) ∧ r.port = 443 :=
  (vless_bracket_rule ("u".data) ("[2001:db8::1]?x".data) ("N".data) 12 (by decide) (by decide)
    (by decide) (by decide) (by decide) (by decide)).1

/-! ### Decimal digits, `int()`, UTF-8 and base64 roundtrips -/

theorem mem_of_getLast?_eq {l : PStr} {d : Char} (h : l.getLast? = some d) : d ∈ l := by
  obtain ⟨hne, heq⟩ := List.mem_getLast?_eq_getLast (show d ∈ l.getLast? by simp [h])
  rw [heq]
  exact List.getLast_mem hne

theorem mem_of_head?_eq {l : PStr} {d : Char} (h : l.head? = some d) : d ∈ l := by
  cases l with
  | nil => cases h
  | cons a t =>
    have ha : a = d := Option.some.inj h
    rw [← ha]
    exact List.mem_cons_self a t

theorem digitChar_facts : ∀ k, k < 10 →
    (Char.ofNat ('0'.toNat + k)).isDigit = true ∧
    Char.ofNat ('0'.toNat + k) ≠ '@' ∧
    Char.ofNat ('0'.toNat + k) ≠ ':' ∧
    isPyWs (Char.ofNat ('0'.toNat + k)) = false ∧
    Char.ofNat ('0'.toNat + k) ≠ '+' ∧
    Char.ofNat ('0'.toNat + k) ≠ '-' ∧
    (Char.ofNat ('0'.toNat + k)).toNat = '0'.toNat + k ∧
    (Char.ofNat ('0'.toNat + k)).toNat < 128 := by decide

theorem natDigitsGo_shape : ∀ (f : Nat), ∀ n < f, ∀ d ∈ natDigitsGo f n,
    ∃ k, k < 10 ∧ d = Char.ofNat ('0'.toNat + k) := by
  intro f
  induction f with
  | zero => intro n hn; exact absurd hn (Nat.not_lt_zero n)
  | succ f ih =>
    intro n hn d hd
    rw [natDigitsGo] at hd
    by_cases h : n < 10
    · rw [if_pos h] at hd
      simp only [List.mem_singleton] at hd
      exact ⟨n, h, hd⟩
    · rw [if_neg h] at hd
      rcases List.mem_append.1 hd with hm | hm
      · exact ih (n / 10) (by omega) d hm
      · simp only [List.mem_singleton] at hm
        exact ⟨n % 10, Nat.mod_lt _ (by omega), hm⟩

theorem natDigits_shape (n : Nat) : ∀ d ∈ natDigits n,
    ∃ k, k < 10 ∧ d = Char.ofNat ('0'.toNat + k) :=
  natDigitsGo_shape (n + 1) n (by omega)

theorem natDigits_ne_nil (n : Nat) : natDigits n ≠ [] := by
  rw [natDigits, natDigitsGo]
  by_cases h : n < 10
  · rw [if_pos h]; simp
  · rw [if_neg h]; simp

theorem pyIntDigsGo_all : ∀ (ds : PStr), (∀ d ∈ ds, d.isDigit = true) → ∀ acc,
    pyIntDigsGo acc ds =
      some (ds.foldl (fun a c => a * 10 + (c.toNat - '0'.toNat)) acc) := by
  intro ds
  induction ds with
  | nil => intro _ acc; rfl
  | cons c t ih =>
    intro h acc
    have hstep : pyIntDigsGo acc (c :: t) =
        pyIntDigsGo (acc * 10 + (c.toNat - '0'.toNat)) t := by
      rw [pyIntDigsGo.eq_def]
      simp [h c (List.mem_cons_self c t)]
    rw [hstep, List.foldl_cons]
    exact ih (fun d hd => h d (List.mem_cons_of_mem c hd)) _

theorem natDigitsGo_foldl : ∀ (f : Nat), ∀ n < f, ∀ acc : Nat,
    (natDigitsGo f n).foldl (fun a c => a * 10 + (c.toNat - '0'.toNat)) acc =
      acc * 10 ^ (natDigitsGo f n).length + n := by
  intro f
  induction f with
  | zero => intro n hn; exact absurd hn (Nat.not_lt_zero n)
  | succ f ih =>
    intro n hn acc
    rw [natDigitsGo]
    by_cases h : n < 10
    · rw [if_pos h]
      have h0 : (Char.ofNat ('0'.toNat + n)).toNat = '0'.toNat + n :=
        (digitChar_facts n h).2.2.2.2.2.2.1
      simp only [List.foldl_cons, List.foldl_nil, List.length_singleton, pow_one, h0]
      omega
    · rw [if_neg h]
      rw [List.foldl_append, List.length_append]
      rw [ih (n / 10) (by omega) acc]
      have h0 : (Char.ofNat ('0'.toNat + n % 10)).toNat = '0'.toNat + n % 10 :=
        (digitChar_facts (n % 10) (Nat.mod_lt _ (by omega))).2.2.2.2.2.2.1
      simp only [List.foldl_cons, List.foldl_nil, List.length_singleton, h0]
      rw [pow_succ]
      have hdm := Nat.div_add_mod n 10
      have hsub : '0'.toNat + n % 10 - '0'.toNat = n % 10 := by omega
      rw [hsub]
      ring_nf
      omega

theorem natDigits_foldl (n : Nat) (acc : Nat) :
    (natDigits n).foldl (fun a c => a * 10 + (c.toNat - '0'.toNat)) acc =
      acc * 10 ^ (natDigits n).length + n :=
  natDigitsGo_foldl (n + 1) n (by omega) acc

theorem natDigits_isDigit (n : Nat) : ∀ d ∈ natDigits n, d.isDigit = true := by
  intro d hd
  obtain ⟨k, hk, rfl⟩ := natDigits_shape n d hd
  exact (digitChar_facts k hk).1

theorem pyIntDigs_natDigits (n : Nat) : pyIntDigs (natDigits n) = some n := by
  cases hnd : natDigits n with
  | nil => exact absurd hnd (natDigits_ne_nil n)
  | cons c t =>
    have hds := natDigits_isDigit n
    have hc : c.isDigit = true := hds c (hnd ▸ List.mem_cons_self c t)
    rw [pyIntDigs, if_pos hc]
    rw [pyIntDigsGo_all t (fun d hd => hds d (hnd ▸ List.mem_cons_of_mem c hd)) _]
    have hfold := natDigits_foldl n 0
    rw [hnd, List.foldl_cons] at hfold
    simp only [Nat.zero_mul, Nat.zero_add] at hfold
    rw [hfold]

theorem stripWs_natDigits (n : Nat) : stripWs (natDigits n) = natDigits n := by
  apply stripWs_eq_self
  · intro d hd
    obtain ⟨k, hk, rfl⟩ := natDigits_shape n d (mem_of_head?_eq hd)
    exact (digitChar_facts k hk).2.2.2.1
  · intro d hd
    obtain ⟨k, hk, rfl⟩ := natDigits_shape n d (mem_of_getLast?_eq hd)
    exact (digitChar_facts k hk).2.2.2.1

theorem pyInt_natDigits (n : Nat) : pyInt (natDigits n) = Except.ok (n : Int) := by
  cases hnd : natDigits n with
  | nil => exact absurd hnd (natDigits_ne_nil n)
  | cons c t =>
    obtain ⟨k, hk, hck⟩ := natDigits_shape n c (hnd ▸ List.mem_cons_self c t)
    rw [pyInt]
    rw [show stripWs (c :: t) = c :: t from by rw [← hnd, stripWs_natDigits]]
    refine Eq.trans (if_neg (show ¬(c = '+') from hck ▸ (digitChar_facts k hk).2.2.2.2.1)) ?_
    refine Eq.trans (if_neg (show ¬(c = '-') from hck ▸ (digitChar_facts k hk).2.2.2.2.2.1)) ?_
    rw [show (c :: t : PStr) = natDigits n from hnd.symm, pyIntDigs_natDigits n]

theorem utf8EncodeChar_ascii {c : Char} (h : c.toNat < 128) :
    utf8EncodeChar c = [c.toNat] := by
  simp [utf8EncodeChar, h]

theorem utf8DecGo_ascii : ∀ (s : PStr), (∀ c ∈ s, c.toNat < 128) →
    ∀ fuel, (utf8Encode s).length ≤ fuel → utf8DecGo .ignore fuel (utf8Encode s) = s := by
  intro s
  induction s with
  | nil =>
    intro _ fuel _
    show utf8DecGo .ignore fuel [] = []
    cases fuel <;> rfl
  | cons c t ih =>
    intro h fuel hf
    have hc : c.toNat < 128 := h c (List.mem_cons_self c t)
    have henc : utf8Encode (c :: t) = c.toNat :: utf8Encode t := by
      simp [utf8Encode, utf8EncodeChar_ascii hc]
    rw [henc] at hf ⊢
    cases fuel with
    | zero => simp at hf
    | succ f =>
      have hstep : utf8DecGo .ignore (f + 1) (c.toNat :: utf8Encode t) =
          Char.ofNat c.toNat :: utf8DecGo .ignore f (utf8Encode t) := if_pos hc
      rw [hstep, Char.ofNat_toNat]
      rw [ih (fun d hd => h d (List.mem_cons_of_mem c hd)) f (by simpa using hf)]

theorem utf8Dec_ascii (s : PStr) (h : ∀ c ∈ s, c.toNat < 128) :
    utf8Dec .ignore (utf8Encode s) = s :=
  utf8DecGo_ascii s h _ le_rfl

theorem b64_tbl : ∀ v, v < 64 → b64val (b64chr v) = some v ∧ ¬(b64chr v = '=') ∧
    ¬(b64chr v = '@') ∧ ¬(b64chr v = '#') ∧ (b64chr v).toNat < 128 := by decide

theorem b64dGo_step0 {c : Char} {v : Nat} (t : PStr) (left pads : Nat) (hne : ¬(c = '='))
    (hv : b64val c = some v) : b64dGo (c :: t) 0 left pads = b64dGo t 1 v 0 := by
  refine Eq.trans (if_neg hne) ?_
  rw [hv]
  exact if_pos rfl

theorem b64dGo_step1 {c : Char} {v : Nat} (t : PStr) (left pads : Nat) (hne : ¬(c = '='))
    (hv : b64val c = some v) : b64dGo (c :: t) 1 left pads =
      (b64dGo t 2 (v % 16) 0).map (fun bs => (left * 4 + v / 16) :: bs) := by
  refine Eq.trans (if_neg hne) ?_
  rw [hv]
  refine Eq.trans (if_neg (by decide)) ?_
  exact if_pos rfl

theorem b64dGo_step2 {c : Char} {v : Nat} (t : PStr) (left pads : Nat) (hne : ¬(c = '='))
    (hv : b64val c = some v) : b64dGo (c :: t) 2 left pads =
      (b64dGo t 3 (v % 4) 0).map (fun bs => (left * 16 + v / 4) :: bs) := by
  refine Eq.trans (if_neg hne) ?_
  rw [hv]
  refine Eq.trans (if_neg (by decide)) ?_
  refine Eq.trans (if_neg (by decide)) ?_
  exact if_pos rfl

theorem b64dGo_step3 {c : Char} {v : Nat} (t : PStr) (left pads : Nat) (hne : ¬(c = '='))
    (hv : b64val c = some v) : b64dGo (c :: t) 3 left pads =
      (b64dGo t 0 0 0).map (fun bs => (left * 64 + v) :: bs) := by
  refine Eq.trans (if_neg hne) ?_
  rw [hv]
  refine Eq.trans (if_neg (by decide)) ?_
  refine Eq.trans (if_neg (by decide)) ?_
  exact if_neg (by decide)

theorem b64dGo_pad (t : PStr) (qp left pads : Nat) :
    b64dGo ('=' :: t) qp left pads =
      if 2 ≤ qp then
        (if 4 ≤ qp + (pads + 1) then Except.ok [] else b64dGo t qp left (pads + 1))
      else b64dGo t qp left pads := if_pos rfl

/-- Decoding the padded encoding of any byte string (with the source's two
extra pads appended) recovers the bytes. -/
theorem b64dGo_encode : ∀ (bs : List Nat), (∀ b ∈ bs, b < 256) →
    b64dGo (b64encodeBytes bs ++ ['=', '=']) 0 0 0 = Except.ok bs
  | [], _ => rfl
  | [b1], h => by
    have h1 : b1 < 256 := h b1 (List.mem_cons_self b1 [])
    have hv1 : b1 / 4 < 64 := by omega
    have hv2 : b1 % 4 * 16 < 64 := by omega
    obtain ⟨ta1, tb1, -, -, -⟩ := b64_tbl _ hv1
    obtain ⟨ta2, tb2, -, -, -⟩ := b64_tbl _ hv2
    rw [show b64encodeBytes [b1] ++ ['=', '='] =
        b64chr (b1 / 4) :: b64chr (b1 % 4 * 16) :: '=' :: '=' :: '=' :: '=' :: ([] : PStr)
      from rfl]
    rw [b64dGo_step0 _ _ _ tb1 ta1, b64dGo_step1 _ _ _ tb2 ta2]
    rw [b64dGo_pad, if_pos (by decide), if_neg (by decide)]
    rw [b64dGo_pad, if_pos (by decide), if_pos (by decide)]
    show Except.ok [b1 / 4 * 4 + b1 % 4 * 16 / 16] = Except.ok [b1]
    have hx : b1 / 4 * 4 + b1 % 4 * 16 / 16 = b1 := by omega
    rw [hx]
  | [b1, b2], h => by
    have h1 : b1 < 256 := h b1 (List.mem_cons_self b1 [b2])
    have h2 : b2 < 256 := h b2 (List.mem_cons_of_mem b1 (List.mem_cons_self b2 []))
    have hv1 : b1 / 4 < 64 := by omega
    have hv2 : b1 % 4 * 16 + b2 / 16 < 64 := by omega
    have hv3 : b2 % 16 * 4 < 64 := by omega
    obtain ⟨ta1, tb1, -, -, -⟩ := b64_tbl _ hv1
    obtain ⟨ta2, tb2, -, -, -⟩ := b64_tbl _ hv2
    obtain ⟨ta3, tb3, -, -, -⟩ := b64_tbl _ hv3
    rw [show b64encodeBytes [b1, b2] ++ ['=', '='] =
        b64chr (b1 / 4) :: b64chr (b1 % 4 * 16 + b2 / 16) :: b64chr (b2 % 16 * 4) ::
          '=' :: '=' :: '=' :: ([] : PStr) from rfl]
    rw [b64dGo_step0 _ _ _ tb1 ta1, b64dGo_step1 _ _ _ tb2 ta2, b64dGo_step2 _ _ _ tb3 ta3]
    rw [b64dGo_pad, if_pos (by decide), if_pos (by decide)]
    show Except.ok [b1 / 4 * 4 + (b1 % 4 * 16 + b2 / 16) / 16,
        (b1 % 4 * 16 + b2 / 16) % 16 * 16 + b2 % 16 * 4 / 4] = Except.ok [b1, b2]
    have hx1 : b1 / 4 * 4 + (b1 % 4 * 16 + b2 / 16) / 16 = b1 := by omega
    have hx2 : (b1 % 4 * 16 + b2 / 16) % 16 * 16 + b2 % 16 * 4 / 4 = b2 := by omega
    rw [hx1, hx2]
  | b1 :: b2 :: b3 :: rest, h => by
    have h1 : b1 < 256 := h b1 (by simp)
    have h2 : b2 < 256 := h b2 (by simp)
    have h3 : b3 < 256 := h b3 (by simp)
    have hv1 : b1 / 4 < 64 := by omega
    have hv2 : b1 % 4 * 16 + b2 / 16 < 64 := by omega
    have hv3 : b2 % 16 * 4 + b3 / 64 < 64 := by omega
    have hv4 : b3 % 64 < 64 := by omega
    obtain ⟨ta1, tb1, -, -, -⟩ := b64_tbl _ hv1
    obtain ⟨ta2, tb2, -, -, -⟩ := b64_tbl _ hv2
    obtain ⟨ta3, tb3, -, -, -⟩ := b64_tbl _ hv3
    obtain ⟨ta4, tb4, -, -, -⟩ := b64_tbl _ hv4
    rw [show b64encodeBytes (b1 :: b2 :: b3 :: rest) ++ ['=', '='] =
        b64chr (b1 / 4) :: b64chr (b1 % 4 * 16 + b2 / 16) :: b64chr (b2 % 16 * 4 + b3 / 64) ::
          b64chr (b3 % 64) :: (b64encodeBytes rest ++ ['=', '=']) from rfl]
    rw [b64dGo_step0 _ _ _ tb1 ta1, b64dGo_step1 _ _ _ tb2 ta2, b64dGo_step2 _ _ _ tb3 ta3,
      b64dGo_step3 _ _ _ tb4 ta4]
    rw [b64dGo_encode rest (fun b hb => h b (by simp [hb]))]
    show Except.ok ((b1 / 4 * 4 + (b1 % 4 * 16 + b2 / 16) / 16) ::
        ((b1 % 4 * 16 + b2 / 16) % 16 * 16 + (b2 % 16 * 4 + b3 / 64) / 4) ::
        ((b2 % 16 * 4 + b3 / 64) % 4 * 64 + b3 % 64) :: rest) =
      Except.ok (b1 :: b2 :: b3 :: rest)
    have hx1 : b1 / 4 * 4 + (b1 % 4 * 16 + b2 / 16) / 16 = b1 := by omega
    have hx2 : (b1 % 4 * 16 + b2 / 16) % 16 * 16 + (b2 % 16 * 4 + b3 / 64) / 4 = b2 := by omega
    have hx3 : (b2 % 16 * 4 + b3 / 64) % 4 * 64 + b3 % 64 = b3 := by omega
    rw [hx1, hx2, hx3]

/-- Every character of an encoded byte string is a pad or an alphabet
character of a 6-bit value. -/
theorem b64encodeBytes_mem : ∀ (bs : List Nat), (∀ b ∈ bs, b < 256) →
    ∀ c ∈ b64encodeBytes bs, c = '=' ∨ ∃ v, v < 64 ∧ c = b64chr v
  | [], _ => by intro c hc; cases hc
  | [b1], h => by
    intro c hc
    have h1 : b1 < 256 := h b1 (List.mem_cons_self b1 [])
    rcases hc with _ | ⟨_, _ | ⟨_, _ | ⟨_, _ | ⟨_, hc⟩⟩⟩⟩
    · exact Or.inr ⟨b1 / 4, by omega, rfl⟩
    · exact Or.inr ⟨b1 % 4 * 16, by omega, rfl⟩
    · exact Or.inl rfl
    · exact Or.inl rfl
    · cases hc
  | [b1, b2], h => by
    intro c hc
    have h1 : b1 < 256 := h b1 (List.mem_cons_self b1 [b2])
    have h2 : b2 < 256 := h b2 (List.mem_cons_of_mem b1 (List.mem_cons_self b2 []))
    rcases hc with _ | ⟨_, _ | ⟨_, _ | ⟨_, _ | ⟨_, hc⟩⟩⟩⟩
    · exact Or.inr ⟨b1 / 4, by omega, rfl⟩
    · exact Or.inr ⟨b1 % 4 * 16 + b2 / 16, by omega, rfl⟩
    · exact Or.inr ⟨b2 % 16 * 4, by omega, rfl⟩
    · exact Or.inl rfl
    · cases hc
  | b1 :: b2 :: b3 :: rest, h => by
    intro c hc
    have h1 : b1 < 256 := h b1 (by simp)
    have h2 : b2 < 256 := h b2 (by simp)
    have h3 : b3 < 256 := h b3 (by simp)
    rcases hc with _ | ⟨_, _ | ⟨_, _ | ⟨_, _ | ⟨_, hc⟩⟩⟩⟩
    · exact Or.inr ⟨b1 / 4, by omega, rfl⟩
    · exact Or.inr ⟨b1 % 4 * 16 + b2 / 16, by omega, rfl⟩
    · exact Or.inr ⟨b2 % 16 * 4 + b3 / 64, by omega, rfl⟩
    · exact Or.inr ⟨b3 % 64, by omega, rfl⟩
    · exact b64encodeBytes_mem rest (fun b hb => h b (by simp [hb])) c hc

/-- C6: for every well-formed fully-encoded shadowsocks line — built by
base64-encoding the UTF-8 bytes of `method:credential@server:port` (ASCII
payload, `@` not in the server, server already stripped) and prefixing
`ss://` — the body contains no `@`, so the decoder takes the encoded branch:
it pads with `=`, base64-decodes, UTF-8-decodes ignoring undecodable bytes,
requires an `@`, splits the text after the last `@` at its last `:`, and
recovers exactly the server and port the line was built from. -/
theorem ss_encoded_roundtrip (m cred srv frag : PStr) (port : Nat)
    (hascii : ∀ ch ∈ m ++ (':' :: (cred ++ ('@' :: (srv ++ (':' :: natDigits port))))),
      ch.toNat < 128)
    (hsrv : '@' ∉ srv) (hstrip : stripWs srv = srv) :
    ∃ r, parse_ss
        (("ss://".data) ++ ((b64encodeBytes (utf8Encode (m ++ (':' :: (cred ++ ('@' :: (srv ++ (':' :: natDigits port)))))))) ++ ('#' :: frag))) = some r ∧
      r.server = srv ∧ r.port = (port : Int) := by
  set payload := m ++ (':' :: (cred ++ ('@' :: (srv ++ (':' :: natDigits port))))) with hpay
  set body := b64encodeBytes (utf8Encode payload) with hbody
  have hbytes : ∀ b ∈ utf8Encode payload, b < 256 := by
    intro b hb
    rw [utf8Encode] at hb
    obtain ⟨l, hl, hbl⟩ := List.mem_flatten.1 hb
    obtain ⟨c, hc, rfl⟩ := List.mem_map.1 hl
    rw [utf8EncodeChar_ascii (hascii c hc)] at hbl
    have : b = c.toNat := by simpa using hbl
    have := hascii c hc
    omega
  have hmemchar : ∀ c ∈ body, c = '=' ∨ ∃ v, v < 64 ∧ c = b64chr v :=
    b64encodeBytes_mem _ hbytes
  have hno1 : '#' ∉ body := by
    intro hmem
    rcases hmemchar '#' hmem with he | ⟨v, hv, heq⟩
    · exact absurd he (by decide)
    · exact absurd heq.symm (b64_tbl v hv).2.2.2.1
  have hno2 : '@' ∉ body := by
    intro hmem
    rcases hmemchar '@' hmem with he | ⟨v, hv, heq⟩
    · exact absurd he (by decide)
    · exact absurd heq.symm (b64_tbl v hv).2.2.1
  have hdig : ∀ d ∈ natDigits port, ¬(d = '@') ∧ ¬(d = ':') := by
    intro d hd
    obtain ⟨k, hk, rfl⟩ := natDigits_shape port d hd
    exact ⟨(digitChar_facts k hk).2.1, (digitChar_facts k hk).2.2.1⟩
  have hdrop : (("ss://".data) ++ (body ++ ('#' :: frag))).drop 5 = body ++ '#' :: frag :=
    List.drop_left' (by decide)
  have hsplit : split_hash 5 (("ss://".data) ++ (body ++ ('#' :: frag))) = (body, frag) := by
    unfold split_hash
    rw [hdrop, splitFirstChar_append body frag hno1]
  have hcont : body.contains '@' = false := contains_eq_false hno2
  have hanyf : (body ++ ['=', '=']).any (fun c => decide (0x80 ≤ c.toNat)) = false := by
    rw [List.any_eq_false]
    intro c hc
    rcases List.mem_append.1 hc with hm | hm
    · rcases hmemchar c hm with rfl | ⟨v, hv, rfl⟩
      · decide
      · have := (b64_tbl v hv).2.2.2.2
        simpa using by omega
    · have : c = '=' := by
        rcases hm with _ | ⟨_, hm2⟩
        · rfl
        · rcases hm2 with _ | ⟨_, hm3⟩
          · rfl
          · cases hm3
      subst this
      decide
  have hb64 : b64decodePy (body ++ ['=', '=']) = Except.ok (utf8Encode payload) := by
    rw [b64decodePy, if_neg (by rw [hanyf]; exact fun h => Bool.noConfusion h)]
    exact b64dGo_encode _ hbytes
  have hu8 : utf8Dec .ignore (utf8Encode payload) = payload := utf8Dec_ascii _ hascii
  have hat : splitLastChar '@' payload =
      some (m ++ (':' :: cred), srv ++ (':' :: natDigits port)) := by
    rw [show payload = (m ++ (':' :: cred)) ++ '@' :: (srv ++ (':' :: natDigits port))
      from by simp [hpay]]
    apply splitLastChar_append
    intro hmem
    rcases List.mem_append.1 hmem with hm | hm
    · exact hsrv hm
    · rcases List.mem_cons.1 hm with he | hm2
      · exact absurd he (by decide)
      · exact (hdig '@' hm2).1 rfl
  have hdh : ss_decoded_host body = Except.ok (srv ++ (':' :: natDigits port)) := by
    rw [ss_decoded_host, hb64]
    show (match splitLastChar '@' (utf8Dec .ignore (utf8Encode payload)) with
      | some p => pure p.2
      | none => Except.error "None: no at sign in decoded body") = _
    rw [hu8, hat]
    rfl
  have hcolon : splitLastChar ':' (srv ++ (':' :: natDigits port)) =
      some (srv, natDigits port) := by
    apply splitLastChar_append
    intro hmem
    exact (hdig ':' hmem).2 rfl
  have hsp : ss_hostport (srv ++ (':' :: natDigits port)) = Except.ok (srv, (port : Int)) := by
    rw [ss_hostport, hcolon]
    show (do
      let p ← pyInt (natDigits port)
      pure (srv, p) : Except String (PStr × Int)) = _
    rw [pyInt_natDigits]
    rfl
  refine ⟨⟨"shadowsocks".data, srv, (port : Int), (parse_config_name frag).name,
    (parse_config_name frag).country, (parse_config_name frag).telegram_channel,
    (parse_config_name frag).is_telegram⟩, ?_, rfl, rfl⟩
  unfold parse_ss parse_ss_core
  simp only [hsplit, hcont, Bool.false_eq_true, if_false, hdh, except_bind_ok, hsp, mkRec,
    hstrip]
  rfl

/-- Witness for C6: the line built from `aes:pw@example.com:8388` is decoded
back to server `example.com`, port 8388. -/
theorem ss_encoded_roundtrip_witness :
    ∃ r, parse_ss
        (("ss://".data) ++ ((b64encodeBytes (utf8Encode ("aes".data ++ (':' :: ("pw".data ++
          ('@' :: ("example.com".data ++ (':' :: natDigits 8388)))))))) ++ ('#' :: "x".data)))
        = some r ∧
      r.server = "example.com".data ∧ r.port = (8388 : Int) :=
  ss_encoded_roundtrip ("aes".data) ("pw".data) ("example.com".data) ("x".data) 8388
    (by decide) (by decide) (by decide)

/-! ### Characterization of first-occurrence searches (for the telegram
cascade's channel truncation) -/

theorem idxOfChar_eq_some_iff {c : Char} : ∀ (l : PStr) (i : Nat),
    idxOfChar c l = some i ↔
      (l.get? i = some c ∧ ∀ j, j < i → l.get? j ≠ some c) := by
  intro l
  induction l with
  | nil =>
    intro i
    constructor
    · intro h; cases h
    · rintro ⟨h1, -⟩
      rw [List.get?_eq_none.2 (by simp)] at h1
      cases h1
  | cons a t ih =>
    intro i
    by_cases ha : a = c
    · rw [idxOfChar, if_pos ha]
      cases i with
      | zero =>
        simp only [List.get?]
        constructor
        · intro _; exact ⟨by rw [ha], fun j hj => absurd hj (Nat.not_lt_zero j)⟩
        · intro _; trivial
      | succ n =>
        constructor
        · intro h; exact absurd (Option.some.inj h) (by omega)
        · rintro ⟨-, h2⟩
          exact absurd (show (a :: t).get? 0 = some c by simp [ha]) (h2 0 (Nat.succ_pos n))
    · rw [idxOfChar, if_neg ha]
      cases i with
      | zero =>
        constructor
        · intro h
          cases hidx : idxOfChar c t with
          | none => rw [hidx] at h; cases h
          | some j =>
            rw [hidx] at h
            exact absurd (show j + 1 = 0 from Option.some.inj h) (by omega)
        · rintro ⟨h1, -⟩
          exact absurd (Option.some.inj h1) ha
      | succ n =>
        constructor
        · intro h
          cases hidx : idxOfChar c t with
          | none => rw [hidx] at h; cases h
          | some j =>
            rw [hidx] at h
            have hjn : j = n := by
              have hh : j + 1 = n + 1 := Option.some.inj h
              omega
            subst hjn
            obtain ⟨h1, h2⟩ := (ih j).1 hidx
            refine ⟨h1, ?_⟩
            intro j2 hj2
            cases j2 with
            | zero => intro hc0; exact ha (Option.some.inj hc0)
            | succ j3 => exact h2 j3 (by omega)
        · rintro ⟨h1, h2⟩
          have : idxOfChar c t = some n :=
            (ih n).2 ⟨h1, fun j hj => h2 (j + 1) (by omega)⟩
          rw [this]
          rfl

theorem idxOfChar_of_mem {c : Char} : ∀ {l : PStr}, c ∈ l → ∃ p, idxOfChar c l = some p := by
  intro l
  induction l with
  | nil => intro h; cases h
  | cons a t ih =>
    intro h
    by_cases ha : a = c
    · exact ⟨0, by rw [idxOfChar, if_pos ha]⟩
    · rcases List.mem_cons.1 h with he | hm
      · exact absurd he.symm ha
      · obtain ⟨p, hp⟩ := ih hm
        exact ⟨p + 1, by rw [idxOfChar, if_neg ha, hp]; rfl⟩

theorem findSub_drop {pat : PStr} : ∀ {l : PStr} {q : Nat}, findSub pat l = some q →
    pat.isPrefixOf (l.drop q) = true := by
  intro l
  induction l with
  | nil =>
    intro q h
    rw [findSub] at h
    by_cases hp : pat.isPrefixOf ([] : PStr)
    · rw [if_pos hp] at h
      cases h
      simpa using hp
    · rw [if_neg hp] at h
      cases h
  | cons a t ih =>
    intro q h
    rw [findSub] at h
    by_cases hp : pat.isPrefixOf (a :: t)
    · rw [if_pos hp] at h
      cases h
      simpa using hp
    · rw [if_neg hp] at h
      cases hf : findSub pat t with
      | none => rw [hf] at h; cases h
      | some j =>
        rw [hf] at h
        have hq : q = j + 1 := (Option.some.inj h).symm
        subst hq
        exact ih hf

theorem colon2_first {x : PStr} (h : ("::".data).isPrefixOf x = true) :
    x.get? 0 = some ':' := by
  cases x with
  | nil => cases h
  | cons a t =>
    have h2 : (':' == a && ([':'] : PStr).isPrefixOf t) = true := h
    have h3 : a = ':' := (beq_iff_eq.1 ((Bool.and_eq_true _ _) ▸ h2).1).symm
    simp [h3]

/-- The decoder's channel truncation `split("::")[0].split(":")[0]` equals
taking up to the first `::` or `:`, whichever comes first. -/
theorem takeUntil_colon_min (l : PStr) :
    takeUntilChar ':' (takeUntilSub ("::".data) l) =
      l.take (min ((idxOfChar ':' l).getD l.length) ((findSub ("::".data) l).getD l.length)) := by
  cases hq : findSub ("::".data) l with
  | none =>
    rw [takeUntilSub, hq]
    cases hp : idxOfChar ':' l with
    | none =>
      rw [takeUntilChar, hp]
      simp
    | some p =>
      rw [takeUntilChar, hp]
      have hplen : p < l.length :=
        (List.get?_eq_some.1 ((idxOfChar_eq_some_iff l p).1 hp).1).1
      simp only [Option.getD_some, Option.getD_none]
      rw [min_eq_left (by omega)]
  | some q =>
    rw [takeUntilSub, hq]
    have hpre := findSub_drop hq
    have hgetq : l.get? q = some ':' := by
      have h0 := colon2_first hpre
      rwa [List.get?_drop, Nat.add_zero] at h0
    have hqlen : q < l.length := (List.get?_eq_some.1 hgetq).1
    obtain ⟨p, hp⟩ := idxOfChar_of_mem (List.mem_iff_get?.2 ⟨q, hgetq⟩)
    obtain ⟨hgp, hmin⟩ := (idxOfChar_eq_some_iff l p).1 hp
    have hpq : p ≤ q := by
      by_contra hlt
      exact hmin q (by omega) hgetq
    rw [hp]
    simp only [Option.getD_some]
    rw [min_eq_left hpq]
    by_cases hplt : p < q
    · have hidx : idxOfChar ':' (l.take q) = some p := by
        refine (idxOfChar_eq_some_iff _ _).2 ⟨?_, ?_⟩
        · rw [List.get?_take hplt]
          exact hgp
        · intro j hj
          rw [List.get?_take (by omega)]
          exact hmin j hj
      rw [takeUntilChar, hidx]
      show List.take p (List.take q l) = List.take p l
      rw [List.take_take, min_eq_left (by omega : p ≤ q)]
    · have hpe : p = q := by omega
      have hnm : ':' ∉ l.take q := by
        intro hmem
        obtain ⟨j, hj⟩ := List.mem_iff_get?.1 hmem
        have hjlen : j < (l.take q).length := (List.get?_eq_some.1 hj).1
        rw [List.length_take] at hjlen
        have hjq : j < q := by omega
        rw [List.get?_take hjq] at hj
        exact hmin j (by omega) hj
      rw [takeUntilChar, idxOfChar_eq_none hnm]
      show List.take q l = List.take p l
      rw [hpe]

/-- C8: for every label whose cleaned working name (after the last-`::`
country split and `>>` removal) does not start with `@`, triggers no tag of
case (b), but contains `@` (at first index `i`), the extractor sets
`is_telegram = true` and sets the channel to the substring from that `@` to
the end, truncated at the first subsequent `::` or `:` (whichever comes
first) and trimmed — the spec-side `c8SpecChannel`. -/
theorem telegram_case_c (fragment : PStr)
    (h1 : ¬((stripWs (pcn_workName (unquote fragment))).head? = some '@'))
    (h2 : tagHit (stripWs (pcn_workName (unquote fragment))) = false)
    (i : Nat) (h3 : idxOfChar '@' (stripWs (pcn_workName (unquote fragment))) = some i) :
    (parse_config_name fragment).is_telegram = true ∧
    (parse_config_name fragment).telegram_channel =
      some (c8SpecChannel ((stripWs (pcn_workName (unquote fragment))).drop i)) := by
  have hget : (stripWs (pcn_workName (unquote fragment))).get? i = some '@' :=
    ((idxOfChar_eq_some_iff _ i).1 h3).1
  have hilen : i < (stripWs (pcn_workName (unquote fragment))).length :=
    (List.get?_eq_some.1 hget).1
  have hne : (stripWs (pcn_workName (unquote fragment))).drop i ≠ [] := by
    intro hnil
    have hlen := congrArg List.length hnil
    rw [List.length_drop] at hlen
    simp at hlen
    omega
  have hchan : stripWs (takeUntilChar ':'
      (takeUntilSub ("::".data) ((stripWs (pcn_workName (unquote fragment))).drop i))) =
      c8SpecChannel ((stripWs (pcn_workName (unquote fragment))).drop i) := by
    rw [c8SpecChannel, takeUntil_colon_min, Nat.min_comm]
  have hrec : parse_config_name fragment =
      ⟨pcn_workName (unquote fragment), (pcn_split (unquote fragment)).2,
        some (c8SpecChannel ((stripWs (pcn_workName (unquote fragment))).drop i)), true⟩ := by
    simp only [parse_config_name, h3]
    rw [if_neg h1]
    rw [if_neg (show ¬(tagHit (stripWs (pcn_workName (unquote fragment))) = true) from by
      rw [h2]; exact Bool.false_ne_true)]
    rw [if_pos hne]
    rw [hchan]
  rw [hrec]
  exact ⟨rfl, rfl⟩

/-- Witness for C8: the label `user@host::US` (country split at `::`,
working name `user@host`) is classified as telegram with channel `@host`. -/
theorem telegram_case_c_witness :
    (parse_config_name ("user@host::US".data)).is_telegram = true ∧
    (parse_config_name ("user@host::US".data)).telegram_channel =
      some (c8SpecChannel ((stripWs (pcn_workName (unquote ("user@host::US".data)))).drop 4)) :=
  telegram_case_c ("user@host::US".data) (by decide) (by decide) 4 (by decide)

end VpnSpec
